import Mathlib

/-!
Verification of the text-manipulation core of proxyctl-rs: the SSH
config synchronizer and hosts-registry parser (`src/config.rs`), and the
proxy-target resolver and shell-profile managed-block editor
(`src/proxy.rs`).  Strings are modeled as lists of characters; the
file-system effects of the SSH synchronizer are modeled as an explicit
state record plus a list of write events.
-/

open List

set_option maxRecDepth 10000

abbrev Str := List Char

deriving instance DecidableEq for Except

/-- Model of Rust `char::is_whitespace` restricted to the ASCII range
(the configuration texts handled by the tool are ASCII). -/
def isWsChar (c : Char) : Bool :=
  c = ' ' || c = '\t' || c = '\n' || c = '\r' || c = '\x0b' || c = '\x0c'

/-- Model of Rust `str::trim_start`. -/
def trimStart (s : Str) : Str := s.dropWhile isWsChar

/-- Model of Rust `str::trim_end`. -/
def trimEnd (s : Str) : Str := (s.reverse.dropWhile isWsChar).reverse

/-- Model of Rust `str::trim`. -/
def trim (s : Str) : Str := trimEnd (trimStart s)

/-- Model of Rust `char::to_ascii_lowercase`. -/
def toLowerChar (c : Char) : Char :=
  if 'A' ≤ c && c ≤ 'Z' then Char.ofNat (c.toNat + 32) else c

/-- Model of Rust `str::to_ascii_lowercase`. -/
def lowerStr (s : Str) : Str := s.map toLowerChar

/-- Model of Rust `str::trim_end_matches` for a single-character pattern. -/
def trimEndMatches (s : Str) (c : Char) : Str :=
  (s.reverse.dropWhile (fun x => x = c)).reverse

/-- Model of Rust `str::split_whitespace` (non-empty maximal runs of
non-whitespace characters); fueled recursion. -/
def splitWsF : Nat → Str → List Str
  | 0, _ => []
  | f + 1, s =>
    match s.dropWhile isWsChar with
    | [] => []
    | c :: rest =>
      ((c :: rest).takeWhile (fun x => ! isWsChar x)) ::
        splitWsF f ((c :: rest).dropWhile (fun x => ! isWsChar x))

/-- Model of Rust `str::split_whitespace`. -/
def splitWs (s : Str) : List Str := splitWsF (s.length + 1) s

/-- Split a character list at every occurrence of the separator `c`,
keeping empty pieces (the analogue of Rust `str::split(c)`). -/
def splitOnChar (c : Char) (s : Str) : List Str :=
  s.foldr
    (fun x ps =>
      if x = c then [] :: ps else (x :: ps.headD []) :: ps.tail)
    [[]]

/-- Whether a string ends with a newline character. -/
def endsWithNl (s : Str) : Bool := s.getLast? = some '\n'

/-- Model of Rust `str::lines` for LF-terminated text (CR–LF
normalization is outside the modeled fragment: the documents handled
here use plain `\n` line endings). -/
def strLines (s : Str) : List Str :=
  if endsWithNl s then (splitOnChar '\n' s).dropLast else splitOnChar '\n' s

/-- Model of `Vec::join("\n")` on a list of lines. -/
def joinNl : List Str → Str
  | [] => []
  | [x] => x
  | x :: y :: rest => x ++ '\n' :: joinNl (y :: rest)

/-- First index at which `needle` occurs in `haystack`
(model of Rust `str::find` for string patterns). -/
def findSub (haystack needle : Str) : Option Nat :=
  if needle.isPrefixOf haystack then some 0
  else
    match haystack with
    | [] => none
    | _ :: t => (findSub t needle).map (· + 1)

/-- Last index at which `needle` occurs in `haystack`
(model of Rust `str::rfind` for string patterns). -/
def rfindSub (haystack needle : Str) : Option Nat :=
  match haystack with
  | [] => if needle.isPrefixOf [] then some 0 else none
  | _ :: t =>
    match rfindSub t needle with
    | some i => some (i + 1)
    | none => if needle.isPrefixOf haystack then some 0 else none

/-- Model of Rust `str::contains` for string patterns. -/
def containsSub (haystack needle : Str) : Bool := (findSub haystack needle).isSome

example : trim (" ab\t".toList) = ("ab".toList) := by decide
example : splitWs ("  a bc \t d ".toList) = [("a".toList), ("bc".toList), ("d".toList)] := by decide
example : splitOnChar '\n' ("a\nb\n".toList) = [("a".toList), ("b".toList), []] := by decide
example : strLines ("a\nb\n".toList) = [("a".toList), ("b".toList)] := by decide
example : findSub ("abcab".toList) ("ab".toList) = some 0 := by decide
example : rfindSub ("abcab".toList) ("ab".toList) = some 3 := by decide

/-! ## Host registry parser (`src/config.rs`: `parse_host_line`, `read_hosts_from_file`) -/

/-- A parsed hosts-file entry (`HostEntry` in `src/config.rs`). -/
structure HostEntry where
  pattern : Str
  proxy : Option Str
deriving DecidableEq

/-- The line-level parse failures of `parse_host_line`. -/
inductive ParseMsg where
  | missingPattern
  | unexpectedToken (t : Str)
  | emptyProxy (pattern : Str)
deriving DecidableEq

/-- The token loop of `parse_host_line`: scan the tokens after the
pattern, stopping at an inline `#` comment; a `proxy=`-prefixed token
(or, when no override is set yet, a bare token) provides the override
value, which must be non-empty. -/
def parse_tokens (pattern : Str) (acc : Option Str) : List Str → Except ParseMsg (Option Str)
  | [] => .ok acc
  | t :: rest =>
    if ("#".toList).isPrefixOf t then .ok acc
    else
      let v := if ("proxy=".toList).isPrefixOf t then some (t.drop 6)
               else if acc = none then some t else none
      match v with
      | none => .error (.unexpectedToken t)
      | some value =>
        if value = [] then .error (.emptyProxy pattern)
        else parse_tokens pattern (some value) rest

/-- Model of `parse_host_line` in `src/config.rs`. -/
def parse_host_line (line : Str) : Except ParseMsg HostEntry :=
  match splitWs line with
  | [] => .error .missingPattern
  | pattern :: parts =>
    match parse_tokens pattern none parts with
    | .error e => .error e
    | .ok proxy => .ok ⟨pattern, proxy⟩

/-- A hosts-file error, carrying the file path and the 1-based line
number, as produced by `read_hosts_from_file`. -/
structure HostsErr where
  path : Str
  lineNo : Nat
  msg : ParseMsg
deriving DecidableEq

/-- The per-line loop of `read_hosts_from_file`: `idx` is the 0-based
index of the head line, blank and `#`-comment lines are skipped, and a
parse failure is tagged with the path and `idx + 1`. -/
def read_hosts_lines (path : Str) : Nat → List Str → Except HostsErr (List HostEntry)
  | _, [] => .ok []
  | idx, line :: rest =>
    let t := trim line
    if t = [] ∨ ("#".toList).isPrefixOf t then read_hosts_lines path (idx + 1) rest
    else
      match parse_host_line t with
      | .error m => .error ⟨path, idx + 1, m⟩
      | .ok e =>
        match read_hosts_lines path (idx + 1) rest with
        | .error err => .error err
        | .ok es => .ok (e :: es)

/-- Model of `read_hosts_from_file` in `src/config.rs`; `content` is
`none` when the file does not exist (not an error). -/
def read_hosts_from_file (path : Str) (content : Option Str) : Except HostsErr (List HostEntry) :=
  match content with
  | none => .ok []
  | some c => read_hosts_lines path 0 (strLines c)

/-! ## SSH text-config synchronizer, add operation (`add_ssh_hosts`) -/

/-- Model of `is_host_line` in `src/config.rs`. -/
def is_host_line (l : Str) : Bool :=
  ("host ".toList).isPrefixOf (lowerStr (trimStart l))

/-- Model of `host_patterns_from_line` in `src/config.rs`
(`split_whitespace().skip(1)`). -/
def host_patterns_from_line (l : Str) : List Str := (splitWs l).drop 1

/-- Whether a line is a `ProxyCommand` directive: its trimmed, lowered
form starts with the directive keyword. -/
def is_proxy_directive_line (l : Str) : Bool :=
  ("proxycommand ".toList).isPrefixOf (lowerStr (trimStart l))

/-- The leading whitespace of a line. -/
def line_indent (l : Str) : Str := l.takeWhile isWsChar

/-- Whether a line determines the block indentation in
`determine_block_indent`: non-blank after right-trimming, not a
column-zero comment, and with non-empty leading whitespace. -/
def indent_candidate (l : Str) : Bool :=
  ! (trimEnd l).isEmpty && ! (("#".toList).isPrefixOf (trimEnd l)) && ! (line_indent l).isEmpty

/-- Model of `determine_block_indent` in `src/config.rs`: the leading
whitespace of the first determining line of the block body, defaulting
to four spaces. -/
def determine_block_indent : List Str → Str
  | [] => "    ".toList
  | l :: rest => if indent_candidate l then line_indent l else determine_block_indent rest

/-- The `ProxyCommand` line the tool writes for a proxy value. -/
def expected_proxy_line (v : Str) : Str :=
  ("ProxyCommand /usr/bin/nc -X connect -x ".toList) ++ v ++ (" %h %p".toList)

/-- The error raised by `add_ssh_hosts` when one host block resolves to
two distinct proxies; it carries the trimmed `Host` line. -/
inductive SshErr where
  | conflict (hostLine : Str)
deriving DecidableEq

/-- The proxy lookup built by `add_ssh_hosts` from the host entries: a
`HashMap` keyed by the ASCII-lowered pattern, where a later insert for
the same key overwrites an earlier one, and the value is the per-entry
override or the default proxy. -/
def host_proxy_map (entries : List HostEntry) (defaultProxy : Str) (key : Str) : Option Str :=
  (entries.reverse.find? (fun e => lowerStr e.pattern == key)).map
    (fun e => e.proxy.getD defaultProxy)

/-- The proxies matched by the patterns of a `Host` line. -/
def matched_proxies (m : Str → Option Str) (patterns : List Str) : List Str :=
  patterns.filterMap (fun p => m (lowerStr p))

/-- The per-block step of the `add_ssh_hosts` loop: resolve the block's
matched proxies, fail on a conflict, and otherwise update the first
`ProxyCommand` line of the body (or insert one directly after the
`Host` line). -/
def processBlock (m : Str → Option Str) (hostLine : Str) (body : List Str) :
    Except SshErr (List Str × Bool) :=
  match matched_proxies m (host_patterns_from_line hostLine) with
  | [] => .ok (hostLine :: body, false)
  | first :: restM =>
    if (first :: restM).any (fun v => v != first) then
      .error (.conflict (trim hostLine))
    else
      match body.dropWhile (fun l => ! is_proxy_directive_line l) with
      | [] =>
        .ok (hostLine ::
          (determine_block_indent body ++ expected_proxy_line first) :: body, true)
      | x :: restB =>
        if trim x ≠ expected_proxy_line first ∨
            x ≠ determine_block_indent body ++ expected_proxy_line first then
          .ok (hostLine :: (body.takeWhile (fun l => ! is_proxy_directive_line l)
            ++ (determine_block_indent body ++ expected_proxy_line first) :: restB), true)
        else .ok (hostLine :: body, false)

/-- The main loop of `add_ssh_hosts` over the document lines (fueled):
each `Host` line starts a block extending to the next `Host` line, and
blocks matching no entry are left byte-identical. -/
def processAddF (m : Str → Option Str) : Nat → List Str → Except SshErr (List Str × Bool)
  | 0, _ => .ok ([], false)
  | _ + 1, [] => .ok ([], false)
  | f + 1, l :: rest =>
    if is_host_line l then
      match processBlock m l (rest.takeWhile (fun x => ! is_host_line x)) with
      | .error e => .error e
      | .ok (blk, ch1) =>
        match processAddF m f (rest.dropWhile (fun x => ! is_host_line x)) with
        | .error e => .error e
        | .ok (tl, ch2) => .ok (blk ++ tl, ch1 || ch2)
    else
      match processAddF m f rest with
      | .error e => .error e
      | .ok (tl, ch) => .ok (l :: tl, ch)

/-- The `add_ssh_hosts` line transformation. -/
def processAdd (m : Str → Option Str) (lines : List Str) : Except SshErr (List Str × Bool) :=
  processAddF m (lines.length + 1) lines

/-- Model of `collect_lines` in `src/config.rs`. -/
def collect_lines (s : Str) : List Str := if s = [] then [] else strLines s

/-- The file-system state touched by the SSH synchronizer: the SSH
config file and its backup file (`none` means the file is absent). -/
structure FsState where
  sshConfig : Option Str
  backup : Option Str
deriving DecidableEq

/-- A write performed by the synchronizer. -/
inductive FsEvent where
  | backupWrite (content : Str)
  | configWrite (content : Str)
deriving DecidableEq

/-- Model of `create_backup` in `src/config.rs`: copy the SSH config to
the backup file when the config exists, otherwise do nothing. -/
def create_backup (s : FsState) : FsState × List FsEvent :=
  match s.sshConfig with
  | none => (s, [])
  | some c => ({ s with backup := some c }, [.backupWrite c])

/-- Model of `add_ssh_hosts` in `src/config.rs`, with the host entries
already parsed: return early when the registry is empty, take a backup,
split the config into lines, run the block loop, and write the joined
lines back only when something changed (restoring the trailing newline
when the original had one or the new content is empty). -/
def new_ssh_content (hadNl : Bool) (ls : List Str) : Str :=
  if hadNl || (joinNl ls).isEmpty then joinNl ls ++ ['\n'] else joinNl ls

/-- Model of `add_ssh_hosts` in `src/config.rs`, with the host entries
already parsed; see the description above. -/
def add_ssh_hosts (entries : List HostEntry) (proxyHost : Str) (s : FsState) :
    FsState × List FsEvent × Option SshErr :=
  if entries = [] then (s, [], none)
  else
    match processAdd (host_proxy_map entries proxyHost)
        (collect_lines (s.sshConfig.getD [])) with
    | .error e => ((create_backup s).1, (create_backup s).2, some e)
    | .ok (ls, changed) =>
      if changed then
        ({ (create_backup s).1 with
            sshConfig := some (new_ssh_content (endsWithNl (s.sshConfig.getD [])) ls) },
          (create_backup s).2 ++
            [.configWrite (new_ssh_content (endsWithNl (s.sshConfig.getD [])) ls)], none)
      else ((create_backup s).1, (create_backup s).2, none)

/-! ## SSH text-config synchronizer, remove operation (`remove_ssh_hosts`) -/

/-- Whether a line is a tool-authored `ProxyCommand` line: it starts
the directive keyword and its lowered form contains the tool's
`/usr/bin/nc -x` signature. -/
def is_tool_proxy_line (l : Str) : Bool :=
  is_proxy_directive_line l && containsSub (lowerStr (trimStart l)) ("/usr/bin/nc -x".toList)

/-- The blank-line cleanup loop of `remove_ssh_hosts`: repeatedly drop
the first body line while it is blank and the following line is the
next `Host` line or the end of the block. -/
def cleanup_blanks : List Str → List Str
  | [] => []
  | x :: rest =>
    if trim x = [] ∧ (rest = [] ∨ is_host_line (rest.headD []) = true) then cleanup_blanks rest
    else x :: rest

/-- The per-block removal of `remove_ssh_hosts`: when the body contains
tool-authored `ProxyCommand` lines, delete them all and clean up
leading blank lines; otherwise leave the body untouched. -/
def remove_block_body (body : List Str) : List Str × Bool :=
  if body.any is_tool_proxy_line then
    (cleanup_blanks (body.filter (fun l => ! is_tool_proxy_line l)), true)
  else (body, false)

/-- Whether a `Host` line matches the lowered remove host set. -/
def block_matches_remove (hostSet : List Str) (l : Str) : Bool :=
  (host_patterns_from_line l).any (fun p => hostSet.contains (lowerStr p))

/-- The main loop of `remove_ssh_hosts` over the document lines
(fueled). -/
def processRemoveF (hs : List Str) : Nat → List Str → List Str × Bool
  | 0, _ => ([], false)
  | _ + 1, [] => ([], false)
  | f + 1, l :: rest =>
    if is_host_line l then
      let pr := if block_matches_remove hs l
        then remove_block_body (rest.takeWhile (fun x => ! is_host_line x))
        else (rest.takeWhile (fun x => ! is_host_line x), false)
      let tl := processRemoveF hs f (rest.dropWhile (fun x => ! is_host_line x))
      (l :: (pr.1 ++ tl.1), pr.2 || tl.2)
    else
      let tl := processRemoveF hs f rest
      (l :: tl.1, tl.2)

/-- The `remove_ssh_hosts` line transformation. -/
def processRemove (hs : List Str) (lines : List Str) : List Str × Bool :=
  processRemoveF hs (lines.length + 1) lines

/-! ## Proxy-target resolver (`src/proxy.rs`: `extract_proxy_host`)

`extract_proxy_host` delegates URL parsing to the external `url` crate
(re-exported as `reqwest::Url`), which implements the WHATWG URL
standard.  `url_parse` below models that external collaborator on the
fragment of inputs the resolver feeds it, per the spec's description
("attempt full URL parse; if it yields a host and a port (explicit or
protocol-default), return host:port"): ASCII input without tab/newline
stripping, userinfo split at the last `@`, special schemes `http`
(default port 80) and `https` (443) requiring `://`, other schemes
treated as opaque (no host), first-colon host/port split, bracketed
IPv6 hosts serialized verbatim for canonical literals, empty ports
treated as absent, ports limited to 65535, ASCII domains lowercased.
IPv4 address hosts (a last dot-label that is numeric) are outside the
modeled fragment and map to a parse failure. -/

def isAsciiAlpha (c : Char) : Bool := ('a' ≤ c && c ≤ 'z') || ('A' ≤ c && c ≤ 'Z')

def isDigitChar (c : Char) : Bool := '0' ≤ c && c ≤ '9'

def isHexChar (c : Char) : Bool :=
  isDigitChar c || ('a' ≤ c && c ≤ 'f') || ('A' ≤ c && c ≤ 'F')

/-- Characters allowed after the first character of a URL scheme. -/
def isSchemeChar (c : Char) : Bool :=
  isAsciiAlpha c || isDigitChar c || c = '+' || c = '-' || c = '.'

/-- The WHATWG forbidden host code points (plus `%`, forbidden in
domains). -/
def forbiddenHostChar (c : Char) : Bool :=
  c = '\x00' || c = '\t' || c = '\n' || c = '\r' || c = ' ' || c = '#' || c = '/' ||
  c = ':' || c = '<' || c = '>' || c = '?' || c = '@' || c = '[' || c = '\\' ||
  c = ']' || c = '^' || c = '|' || c = '%'

/-- Decimal value of a digit string. -/
def strToNat (s : Str) : Nat := s.foldl (fun a c => a * 10 + (c.toNat - '0'.toNat)) 0

/-- Decimal digit string of a number (`Nat::to_string`). -/
def nat_digits (n : Nat) : Str := (Nat.repr n).toList

/-- Known default ports of the modeled special schemes. -/
def default_port (scheme : Str) : Option Nat :=
  if scheme = ("http".toList) then some 80
  else if scheme = ("https".toList) then some 443
  else none

def isSpecialScheme (scheme : Str) : Bool := (default_port scheme).isSome

/-- The WHATWG "ends in a number" test on a host: the last non-empty
dot-separated label is all decimal digits or a `0x`-prefixed hex
number. -/
def ends_in_a_number (host : Str) : Bool :=
  let parts := splitOnChar '.' host
  let parts1 := if parts.getLast? = some [] then parts.dropLast else parts
  match parts1.getLast? with
  | none => false
  | some last =>
    ! last.isEmpty && (last.all isDigitChar ||
      (("0x".toList).isPrefixOf last && (last.drop 2).all isHexChar))

/-- The result of a successful URL parse: lowered scheme, serialized
host (brackets included for IPv6), and explicit non-default port. -/
structure ParsedUrl where
  scheme : Str
  host : Option Str
  port : Option Nat
deriving DecidableEq

/-- Parse a port string: empty means no port, digit strings must fit a
`u16`, and a port equal to the scheme default is normalized away;
`none` is a parse failure. -/
def parse_port_str (scheme : Str) (p : Str) : Option (Option Nat) :=
  if p = [] then some none
  else if p.all isDigitChar then
    let n := strToNat p
    if n ≤ 65535 then
      if default_port scheme = some n then some none else some (some n)
    else none
  else none

/-- Validate and serialize a host string. -/
def parse_host (special : Bool) (h : Str) : Option Str :=
  if h = [] then (if special then none else some [])
  else if h.headD ' ' = '[' then
    if h.getLast? = some ']' then
      let inside := (h.drop 1).dropLast
      if ! inside.isEmpty && inside.all (fun c => isHexChar c || c = ':' || c = '.') then
        some h
      else none
    else none
  else if h.any forbiddenHostChar then none
  else if special then
    if ends_in_a_number h then none else some (lowerStr h)
  else some h

/-- Split an authority's host-and-port part and assemble the parse
result (the first colon after a possible bracketed host starts the
port). -/
def parse_hostport (scheme : Str) (special : Bool) (hp : Str) : Option ParsedUrl :=
  if hp.headD ' ' = '[' then
    match findSub hp ("]".toList) with
    | none => none
    | some i =>
      match hp.drop (i + 1) with
      | [] => (parse_host special (hp.take (i + 1))).map (fun h => ⟨scheme, some h, none⟩)
      | ':' :: pstr =>
        match parse_port_str scheme pstr with
        | none => none
        | some port => (parse_host special (hp.take (i + 1))).map (fun h => ⟨scheme, some h, port⟩)
      | _ => none
  else
    match findSub hp (":".toList) with
    | none => (parse_host special hp).map (fun h => ⟨scheme, some h, none⟩)
    | some i =>
      match parse_port_str scheme (hp.drop (i + 1)) with
      | none => none
      | some port => (parse_host special (hp.take i)).map (fun h => ⟨scheme, some h, port⟩)

/-- Model of `reqwest::Url::parse` on the fragment described above. -/
def url_parse (s : Str) : Option ParsedUrl :=
  match s with
  | [] => none
  | c :: _ =>
    if ! isAsciiAlpha c then none
    else
      let schemeRaw := s.takeWhile isSchemeChar
      match s.drop schemeRaw.length with
      | ':' :: rest =>
        let scheme := lowerStr schemeRaw
        if isSpecialScheme scheme then
          match rest with
          | '/' :: '/' :: rest2 =>
            let authority := rest2.takeWhile
              (fun c => ! (c == '/' || c == '?' || c == '#' || c == '\\'))
            let hostport := if authority.contains '@'
              then (authority.reverse.takeWhile (fun c => c != '@')).reverse
              else authority
            parse_hostport scheme true hostport
          | _ => none
        else
          match rest with
          | '/' :: '/' :: rest2 =>
            let authority := rest2.takeWhile (fun c => ! (c == '/' || c == '?' || c == '#'))
            let hostport := if authority.contains '@'
              then (authority.reverse.takeWhile (fun c => c != '@')).reverse
              else authority
            parse_hostport scheme false hostport
          | _ => some ⟨scheme, none, none⟩
      | _ => none

/-- The `try_parse` closure of `extract_proxy_host`: a parse that
yields a host and an explicit or known-default port produces
`host:port`. -/
def try_parse (input : Str) : Option Str :=
  match url_parse input with
  | none => none
  | some u =>
    match u.host with
    | none => none
    | some h =>
      match u.port.or (default_port u.scheme) with
      | some p => some (h ++ ':' :: nat_digits p)
      | none => none

/-- Model of `split_host_port` in `src/proxy.rs`: bracketed inputs get
the `"]: "` and rightmost-`"]:"` special cases, every other input is
split at the rightmost colon into non-empty trimmed halves. -/
def split_host_port (input0 : Str) : Option (Str × Str) :=
  let input := trim input0
  let rcolon :=
    match rfindSub input (":".toList) with
    | none => none
    | some i =>
      let host := trim (input.take i)
      let port := trim (input.drop (i + 1))
      if host ≠ [] ∧ port ≠ [] then some (host, port) else none
  if input.headD ' ' = '[' then
    match findSub input ("]: ".toList) with
    | some idx => some (trim (input.take (idx + 1)), trim (input.drop (idx + 2)))
    | none =>
      match rfindSub input ("]:".toList) with
      | some idx => some (trim (input.take (idx + 1)), trim (input.drop (idx + 2)))
      | none => rcolon
  else rcolon

/-- The `"PROXY "` stripping step of `extract_proxy_host` (exact-case
prefix check, then drop six bytes and trim). -/
def strip_PROXY (t : Str) : Str :=
  if ("PROXY ".toList).isPrefixOf t then trim (t.drop 6) else t

/-- The `"proxy "` stripping step of `extract_proxy_host`. -/
def strip_proxy (t : Str) : Str :=
  if ("proxy ".toList).isPrefixOf t then trim (t.drop 6) else t

/-- The `split_whitespace().next()` step of `extract_proxy_host`: the
first whitespace-delimited token, trimmed (the input itself when there
is none). -/
def first_token (s : Str) : Str :=
  match splitWs s with
  | [] => s
  | t :: _ => trim t

/-- The candidate computed by `extract_proxy_host` from the trimmed
input: strip the exact-case directive prefixes, take the first token,
then shed trailing semicolons, whitespace and slashes. -/
def candidate (trimmed : Str) : Str :=
  trimEndMatches (trim (trimEndMatches (first_token (strip_proxy (strip_PROXY trimmed))) ';')) '/'

/-- Model of `extract_proxy_host` in `src/proxy.rs`. -/
def extract_proxy_host (value : Str) : Option Str :=
  let trimmed := trim value
  if trimmed = [] then none
  else
    match try_parse trimmed with
    | some h => some h
    | none =>
      match try_parse (("http://".toList) ++ trimmed) with
      | some h => some h
      | none =>
        if candidate trimmed = [] then none
        else
          match try_parse (("http://".toList) ++ candidate trimmed) with
          | some h => some h
          | none =>
            match split_host_port (candidate trimmed) with
            | some (h, p) => some (h ++ ':' :: p)
            | none => none

/-! ## Shell-profile managed block (`src/proxy.rs`) -/

/-- The start sentinel line of the managed block. -/
def MANAGED_START : Str := ("### MANAGED BY PROXYCTL-RS START (DO NOT EDIT)").toList

/-- The end sentinel line of the managed block. -/
def MANAGED_END : Str := ("### MANAGED BY PROXYCTL-RS END (DO NOT EDIT)").toList

/-- Walk an index backwards over the newline bytes immediately before
it (the `remove_start` loop of `strip_managed_block`). -/
def back_over_nl (s : Str) (i : Nat) : Nat :=
  i - ((s.take i).reverse.takeWhile (fun c => c == '\n')).length

/-- Walk an index forwards over the newline bytes starting at it (the
`remove_end` loop of `strip_managed_block`). -/
def fwd_over_nl (s : Str) (i : Nat) : Nat :=
  i + ((s.drop i).takeWhile (fun c => c == '\n')).length

/-- The loop of `strip_managed_block` (fueled): repeatedly remove the
region from the first start sentinel through the first end sentinel
after it, together with the adjacent newline runs; stop when no start
sentinel remains or no end sentinel follows it. -/
def strip_managed_blockF : Nat → Str → Str × Bool
  | 0, s => (s, false)
  | f + 1, s =>
    match findSub s MANAGED_START with
    | none => (s, false)
    | some startIdx =>
      match findSub (s.drop startIdx) MANAGED_END with
      | none => (s, false)
      | some rel =>
        let endIdx := startIdx + rel + MANAGED_END.length
        let s2 := s.take (back_over_nl s startIdx) ++ s.drop (fwd_over_nl s endIdx)
        ((strip_managed_blockF f s2).1, true)

/-- Model of `strip_managed_block` in `src/proxy.rs`. -/
def strip_managed_block (s : Str) : Str × Bool := strip_managed_blockF (s.length + 1) s

/-- Model of `write_managed_block` in `src/proxy.rs` as a content
transformation: strip any existing block, normalize the blank-line
separation, and append the sentinel-delimited export block with a final
newline. -/
def write_managed_block (content : Str) (exports : List Str) : Str :=
  let base0 := (strip_managed_block content).1
  let base1 := if ! base0.isEmpty && ! endsWithNl base0 then base0 ++ ['\n'] else base0
  let base2 := if ! base1.isEmpty && ! (("\n\n".toList).isSuffixOf base1) then base1 ++ ['\n']
    else base1
  base2 ++ joinNl (MANAGED_START :: (exports ++ [MANAGED_END])) ++ ['\n']

/-- Model of `remove_managed_block` in `src/proxy.rs` as a content
transformation (when nothing is stripped the file is left unwritten,
which yields the same content). -/
def remove_managed_block (content : Str) : Str := (strip_managed_block content).1

/-- The number of lines of a text equal to the start sentinel. -/
def count_start_lines (s : Str) : Nat :=
  ((splitOnChar '\n' s).filter (fun l => l == MANAGED_START)).length

example : extract_proxy_host ("http://proxy.local:3128".toList) =
    some ("proxy.local:3128".toList) := by decide
example : extract_proxy_host ("proxy.local".toList) = some ("proxy.local:80".toList) := by decide
example : extract_proxy_host ("PROXY host.example:8080".toList) =
    some ("host.example:8080".toList) := by decide
example : extract_proxy_host ("HTTPS host.example:8080".toList) =
    some ("https:80".toList) := by decide
example : extract_proxy_host ("[::1]:8080".toList) = some ("[::1]:8080".toList) := by decide
example : extract_proxy_host ("[::1]: 8080".toList) = some ("[::1]:80".toList) := by decide
example : parse_host_line ("h proxy=a proxy=b".toList) =
    .ok ⟨("h".toList), some ("b".toList)⟩ := by decide

/-- Whether a `Host` line's matched proxies disagree (the conflict test
of `add_ssh_hosts`, which depends only on the `Host` line itself). -/
def line_conflicts (m : Str → Option Str) (l : Str) : Bool :=
  match matched_proxies m (host_patterns_from_line l) with
  | [] => false
  | first :: restM => (first :: restM).any (fun v => v != first)

/-- The character set of a plain lowercase hostname: lowercase ASCII
letters, digits, dots and hyphens. -/
def isHostnameChar (c : Char) : Bool :=
  ('a' ≤ c && c ≤ 'z') || isDigitChar c || c = '.' || c = '-'

/-! ## Foundation lemmas -/

/-- A string all of whose characters are whitespace. -/
def IsWsStr (s : Str) : Prop := ∀ c ∈ s, isWsChar c = true

theorem takeWhile_append_all {α : Type} {p : α → Bool} {a b : List α} (h : ∀ x ∈ a, p x = true) :
    (a ++ b).takeWhile p = a ++ b.takeWhile p := by
  induction a with
  | nil => simp
  | cons x t ih =>
    simp only [cons_append, takeWhile_cons, h x (mem_cons_self x t), if_true, cons.injEq,
      true_and]
    exact ih (fun y hy => h y (mem_cons_of_mem x hy))

theorem dropWhile_append_all {α : Type} {p : α → Bool} {a b : List α} (h : ∀ x ∈ a, p x = true) :
    (a ++ b).dropWhile p = b.dropWhile p := by
  induction a with
  | nil => simp
  | cons x t ih =>
    simp only [cons_append, dropWhile_cons, h x (mem_cons_self x t), if_true]
    exact ih (fun y hy => h y (mem_cons_of_mem x hy))

theorem takeWhile_all_false {α : Type} {p : α → Bool} {a : List α} (h : ∀ x ∈ a, p x = false) :
    a.takeWhile p = [] := by
  cases a with
  | nil => rfl
  | cons x t => simp [takeWhile_cons, h x (mem_cons_self x t)]

theorem dropWhile_all_false {α : Type} {p : α → Bool} {a : List α} (h : ∀ x ∈ a, p x = false) :
    a.dropWhile p = a := by
  cases a with
  | nil => rfl
  | cons x t => simp [dropWhile_cons, h x (mem_cons_self x t)]

theorem trimStart_append_ws {ind e : Str} (h : IsWsStr ind) :
    trimStart (ind ++ e) = trimStart e := by
  simpa only [trimStart] using dropWhile_append_all h

theorem trimStart_eq_self {e : Str} (h : ∀ c ∈ e, isWsChar c = false) : trimStart e = e :=
  dropWhile_all_false h

theorem trimStart_head {c : Char} {e : Str} (hc : isWsChar c = false) :
    trimStart (c :: e) = c :: e := by
  simp [trimStart, dropWhile_cons, hc]

theorem trimEnd_getLast {e : Str} {c : Char} (hl : e.getLast? = some c)
    (hc : isWsChar c = false) : trimEnd e = e := by
  have h1 : e.reverse.head? = some c := by rw [head?_reverse, hl]
  rw [trimEnd]
  cases hre : e.reverse with
  | nil => simp [hre] at h1
  | cons x t =>
    have hx : x = c := by rw [hre] at h1; simpa using h1
    subst hx
    rw [dropWhile_cons, hc]
    simp only [Bool.false_eq_true, if_false]
    rw [← hre, reverse_reverse]

theorem trimEnd_eq_self {e : Str} (h : ∀ c ∈ e, isWsChar c = false) : trimEnd e = e := by
  rw [trimEnd, dropWhile_all_false (fun c hc => h c (mem_reverse.mp hc)), reverse_reverse]

theorem trim_eq_self {e : Str} (h : ∀ c ∈ e, isWsChar c = false) : trim e = e := by
  rw [trim, trimStart_eq_self h, trimEnd_eq_self h]

theorem trimEndMatches_getLast {e : Str} {c d : Char} (hl : e.getLast? = some c)
    (hne : c ≠ d) : trimEndMatches e d = e := by
  have h1 : e.reverse.head? = some c := by rw [head?_reverse, hl]
  rw [trimEndMatches]
  cases hre : e.reverse with
  | nil => simp [hre] at h1
  | cons x t =>
    have hx : x = c := by rw [hre] at h1; simpa using h1
    subst hx
    rw [dropWhile_cons]
    simp only [decide_eq_true_eq]
    rw [if_neg hne, ← hre, reverse_reverse]

theorem lowerStr_append (a b : Str) : lowerStr (a ++ b) = lowerStr a ++ lowerStr b := by
  simp [lowerStr]

/-! ### splitOnChar and joinNl -/

theorem splitOnChar_nil (c : Char) : splitOnChar c [] = [[]] := rfl

theorem splitOnChar_cons_sep (c : Char) (s : Str) :
    splitOnChar c (c :: s) = [] :: splitOnChar c s := by
  simp [splitOnChar]

theorem splitOnChar_cons_ne {c x : Char} (s : Str) (hx : x ≠ c) :
    splitOnChar c (x :: s) =
      (x :: (splitOnChar c s).headD []) :: (splitOnChar c s).tail := by
  simp [splitOnChar, hx]

theorem splitOnChar_ne_nil (c : Char) (s : Str) : splitOnChar c s ≠ [] := by
  induction s with
  | nil => simp [splitOnChar]
  | cons x t ih =>
    by_cases hx : x = c
    · subst hx; rw [splitOnChar_cons_sep]; simp
    · rw [splitOnChar_cons_ne t hx]; simp

theorem splitOnChar_cons_struct (c : Char) (s : Str) :
    splitOnChar c s = (splitOnChar c s).headD [] :: (splitOnChar c s).tail := by
  cases h : splitOnChar c s with
  | nil => exact absurd h (splitOnChar_ne_nil c s)
  | cons a t => simp

theorem headD_mem_splitOnChar (c : Char) (t : Str) :
    (splitOnChar c t).headD [] ∈ splitOnChar c t := by
  cases hs : splitOnChar c t with
  | nil => exact absurd hs (splitOnChar_ne_nil c t)
  | cons a l => simp

theorem mem_tail_splitOnChar {c : Char} {t p : Str} (h : p ∈ (splitOnChar c t).tail) :
    p ∈ splitOnChar c t := by
  cases hs : splitOnChar c t with
  | nil => exact absurd hs (splitOnChar_ne_nil c t)
  | cons a l => rw [hs] at h; exact mem_cons_of_mem _ h

theorem splitOnChar_no_sep {c : Char} : ∀ {s : Str}, c ∉ s → splitOnChar c s = [s]
  | [], _ => rfl
  | x :: t, h => by
    rw [splitOnChar_cons_ne t (fun he => h (by rw [← he]; exact mem_cons_self x t)),
      splitOnChar_no_sep (fun hm => h (mem_cons_of_mem x hm))]
    simp

theorem splitOnChar_append_sep (c : Char) (a b : Str) :
    splitOnChar c (a ++ c :: b) = splitOnChar c a ++ splitOnChar c b := by
  induction a with
  | nil => simp [splitOnChar_cons_sep, splitOnChar_nil]
  | cons x t ih =>
    by_cases hx : x = c
    · subst hx
      rw [cons_append, splitOnChar_cons_sep, splitOnChar_cons_sep, ih, cons_append]
    · rw [cons_append, splitOnChar_cons_ne _ hx, splitOnChar_cons_ne _ hx, ih]
      rw [splitOnChar_cons_struct c t]
      cases hs : splitOnChar c t with
      | nil => exact absurd hs (splitOnChar_ne_nil c t)
      | cons p ps => simp

theorem not_mem_of_mem_splitOnChar {c : Char} : ∀ {s p : Str}, p ∈ splitOnChar c s → c ∉ p
  | [], p, h => by
    rw [splitOnChar_nil] at h
    obtain rfl := mem_singleton.mp h
    simp
  | x :: t, p, h => by
    by_cases hx : x = c
    · subst hx
      rw [splitOnChar_cons_sep] at h
      rcases mem_cons.mp h with rfl | h
      · simp
      · exact not_mem_of_mem_splitOnChar h
    · rw [splitOnChar_cons_ne t hx] at h
      rcases mem_cons.mp h with rfl | h
      · intro hm
        rcases mem_cons.mp hm with rfl | hm
        · exact hx rfl
        · exact not_mem_of_mem_splitOnChar (headD_mem_splitOnChar c t) hm
      · exact not_mem_of_mem_splitOnChar (mem_tail_splitOnChar h)

theorem isPrefix_cons_cons {x : Char} {p t : Str} (h : p <+: t) : x :: p <+: x :: t := by
  obtain ⟨r, rfl⟩ := h
  exact ⟨r, rfl⟩

theorem headD_splitOnChar_isPrefix (c : Char) : ∀ (s : Str), (splitOnChar c s).headD [] <+: s
  | [] => by rw [splitOnChar_nil]; simp
  | x :: t => by
    by_cases hx : x = c
    · subst hx; rw [splitOnChar_cons_sep]; simp
    · rw [splitOnChar_cons_ne t hx]
      simpa using isPrefix_cons_cons (x := x) (headD_splitOnChar_isPrefix c t)

theorem isInfix_of_mem_splitOnChar {c : Char} : ∀ {s p : Str}, p ∈ splitOnChar c s → p <:+: s
  | [], p, h => by
    rw [splitOnChar_nil] at h
    obtain rfl := mem_singleton.mp h
    simp
  | x :: t, p, h => by
    by_cases hx : x = c
    · subst hx
      rw [splitOnChar_cons_sep] at h
      rcases mem_cons.mp h with rfl | h
      · simp
      · exact infix_cons (isInfix_of_mem_splitOnChar h)
    · rw [splitOnChar_cons_ne t hx] at h
      rcases mem_cons.mp h with rfl | h
      · exact (isPrefix_cons_cons (headD_splitOnChar_isPrefix c t)).isInfix
      · exact infix_cons (isInfix_of_mem_splitOnChar (mem_tail_splitOnChar h))

theorem joinNl_cons_cons (x y : Str) (r : List Str) :
    joinNl (x :: y :: r) = x ++ '\n' :: joinNl (y :: r) := rfl

theorem splitOnChar_joinNl :
    ∀ {ls : List Str}, ls ≠ [] → (∀ l ∈ ls, '\n' ∉ l) →
      splitOnChar '\n' (joinNl ls) = ls
  | [], h, _ => absurd rfl h
  | [x], _, hnl => by
    rw [joinNl, splitOnChar_no_sep (hnl x (mem_cons_self x []))]
  | x :: y :: r, _, hnl => by
    rw [joinNl_cons_cons, splitOnChar_append_sep,
      splitOnChar_no_sep (hnl x (mem_cons_self x _)),
      splitOnChar_joinNl (by simp) (fun l hl => hnl l (mem_cons_of_mem x hl))]
    simp

theorem joinNl_ne_nil : ∀ {ls : List Str} {l : Str}, l ∈ ls → l ≠ [] → joinNl ls ≠ []
  | [], l, h, _ => absurd h (not_mem_nil l)
  | [x], l, h, hne => by
    obtain rfl := mem_singleton.mp h
    simpa [joinNl] using hne
  | x :: y :: r, l, h, hne => by
    rw [joinNl_cons_cons]
    rcases mem_cons.mp h with rfl | h
    · cases l with
      | nil => exact absurd rfl hne
      | cons a t => simp
    · cases x with
      | nil => simp
      | cons a t => simp

theorem getLast?_joinNl :
    ∀ {ls : List Str} {t : Str}, ls.getLast? = some t → t ≠ [] →
      (joinNl ls).getLast? = t.getLast?
  | [], t, h, _ => by simp at h
  | [x], t, h, _ => by
    obtain rfl : x = t := by simpa using h
    rfl
  | x :: y :: r, t, h, hne => by
    have h2 : (y :: r).getLast? = some t := by
      rw [← h]; exact (getLast?_cons_cons).symm
    have hj : joinNl (y :: r) ≠ [] := by
      have hmem : t ∈ y :: r := by
        have := getLast?_cons_cons (a := x) (b := y) (l := r) ▸ h
        exact mem_of_mem_getLast? this
      exact joinNl_ne_nil hmem hne
    rw [joinNl_cons_cons, getLast?_append]
    have hglj := getLast?_joinNl h2 hne
    cases hjj : joinNl (y :: r) with
    | nil => exact absurd hjj hj
    | cons a s =>
      rw [hjj] at hglj
      rw [getLast?_cons_cons, hglj]
      cases t with
      | nil => exact absurd rfl hne
      | cons a1 t1 => rw [getLast?_cons]; rfl

theorem endsWithNl_concat_nl (s : Str) : endsWithNl (s ++ ['\n']) = true := by
  simp [endsWithNl, getLast?_concat]

theorem collect_lines_joinNl_nl {ls : List Str} (hne : ls ≠ [])
    (hnl : ∀ l ∈ ls, '\n' ∉ l) : collect_lines (joinNl ls ++ ['\n']) = ls := by
  have hsplit : splitOnChar '\n' (joinNl ls ++ ['\n']) = splitOnChar '\n' (joinNl ls) ++ [[]] := by
    have : joinNl ls ++ ['\n'] = joinNl ls ++ '\n' :: [] := rfl
    rw [this, splitOnChar_append_sep, splitOnChar_nil]
  have hj : joinNl ls ++ ['\n'] ≠ [] := by simp
  rw [collect_lines, if_neg hj, strLines, endsWithNl_concat_nl, if_pos rfl, hsplit,
    splitOnChar_joinNl hne hnl, dropLast_concat]

theorem collect_lines_joinNl {ls : List Str} {t : Str} (hne : ls ≠ [])
    (hnl : ∀ l ∈ ls, '\n' ∉ l) (hlast : ls.getLast? = some t) (htne : t ≠ []) :
    collect_lines (joinNl ls) = ls := by
  have hmem : t ∈ ls := mem_of_mem_getLast? hlast
  have hjne : joinNl ls ≠ [] := joinNl_ne_nil hmem htne
  have hgl : (joinNl ls).getLast? = t.getLast? := getLast?_joinNl hlast htne
  have hnotnl : endsWithNl (joinNl ls) = false := by
    rw [endsWithNl, hgl]
    cases hgt : t.getLast? with
    | none => simp
    | some u =>
      have hu : u ∈ t := mem_of_mem_getLast? hgt
      have : u ≠ '\n' := fun he => (hnl t hmem) (he ▸ hu)
      simpa using this
  rw [collect_lines, if_neg hjne, strLines, hnotnl]
  simp only [Bool.false_eq_true, if_false]
  exact splitOnChar_joinNl hne hnl

theorem noNl_of_mem_collect_lines {s l : Str} (h : l ∈ collect_lines s) : '\n' ∉ l := by
  rw [collect_lines] at h
  split at h
  · simp at h
  · rw [strLines] at h
    split at h
    · exact not_mem_of_mem_splitOnChar ((dropLast_sublist _).subset h)
    · exact not_mem_of_mem_splitOnChar h

theorem getLast_splitOnChar_ne_nil {c : Char} :
    ∀ {s : Str}, s ≠ [] → s.getLast? ≠ some c → (splitOnChar c s).getLast? ≠ some []
  | [], h, _ => absurd rfl h
  | [x], _, hl => by
    have hx : x ≠ c := fun he => hl (by simp [he])
    rw [splitOnChar_no_sep (by simpa using fun he => hx he.symm)]
    simp
  | x :: y :: t, _, hl => by
    have hl2 : (y :: t).getLast? ≠ some c := by
      rw [← getLast?_cons_cons (a := x)]; exact hl
    have ih := getLast_splitOnChar_ne_nil (s := y :: t) (by simp) hl2
    by_cases hx : x = c
    · subst hx
      rw [splitOnChar_cons_sep]
      cases hs : splitOnChar x (y :: t) with
      | nil => exact absurd hs (splitOnChar_ne_nil _ _)
      | cons a s =>
        rw [hs] at ih
        simpa [getLast?_cons_cons] using ih
    · rw [splitOnChar_cons_ne _ hx]
      cases hs : splitOnChar c (y :: t) with
      | nil => exact absurd hs (splitOnChar_ne_nil _ _)
      | cons a s =>
        rw [hs] at ih
        cases s with
        | nil => simp
        | cons b u =>
          simp only [tail_cons]
          rw [getLast?_cons_cons] at ih ⊢
          exact ih

theorem collect_lines_getLast_ne_nil {s : Str} (hne : s ≠ []) (hnl : endsWithNl s = false) :
    (collect_lines s).getLast? ≠ some [] := by
  have hlast : s.getLast? ≠ some '\n' := by
    intro h; rw [endsWithNl, h] at hnl; simp at hnl
  rw [collect_lines, if_neg hne, strLines, hnl]
  simp only [Bool.false_eq_true, if_false]
  exact getLast_splitOnChar_ne_nil hne hlast

/-! ### Properties of the formatted `ProxyCommand` line and block indentation -/

theorem expected_cons (v : Str) :
    expected_proxy_line v =
      'P' :: (("roxyCommand /usr/bin/nc -X connect -x ".toList) ++ v ++ (" %h %p".toList)) := rfl

theorem expected_getLast (v : Str) : (expected_proxy_line v).getLast? = some 'p' := by
  rw [expected_proxy_line, append_assoc, getLast?_append, getLast?_append]
  have h2 : ((" %h %p".toList) : Str).getLast? = some 'p' := rfl
  rw [h2]
  rfl

theorem ws_ne_hash {c : Char} (h : isWsChar c = true) : c ≠ '#' := by
  intro he; subst he; exact absurd h (by decide)

theorem isWs_line_indent (l : Str) : IsWsStr (line_indent l) :=
  fun _ hc => mem_takeWhile_imp hc

theorem indent_candidate_ne_nil {l : Str} (h : indent_candidate l = true) :
    line_indent l ≠ [] := by
  rw [indent_candidate] at h
  simp only [Bool.and_eq_true, Bool.not_eq_true'] at h
  intro he
  rw [he] at h
  simp at h

theorem determine_ws (body : List Str) : IsWsStr (determine_block_indent body) := by
  induction body with
  | nil =>
    intro c hc
    rw [determine_block_indent] at hc
    rw [show (("    ".toList) : Str) = [' ', ' ', ' ', ' '] from rfl] at hc
    simp only [mem_cons, not_mem_nil, or_false] at hc
    rcases hc with rfl | rfl | rfl | rfl <;> decide
  | cons l rest ih =>
    rw [determine_block_indent]
    by_cases hc : indent_candidate l
    · rw [if_pos hc]; exact isWs_line_indent l
    · rw [if_neg hc]; exact ih

theorem determine_ne_nil (body : List Str) : determine_block_indent body ≠ [] := by
  induction body with
  | nil => rw [determine_block_indent]; simp
  | cons l rest ih =>
    rw [determine_block_indent]
    by_cases hc : indent_candidate l
    · rw [if_pos hc]; exact indent_candidate_ne_nil hc
    · rw [if_neg hc]; exact ih

theorem trimStart_formatted {ind : Str} (v : Str) (hws : IsWsStr ind) :
    trimStart (ind ++ expected_proxy_line v) = expected_proxy_line v := by
  rw [trimStart_append_ws hws, expected_cons]
  exact trimStart_head (c := 'P') (by decide)

theorem trim_formatted {ind : Str} (v : Str) (hws : IsWsStr ind) :
    trim (ind ++ expected_proxy_line v) = expected_proxy_line v := by
  rw [trim, trimStart_formatted v hws]
  exact trimEnd_getLast (c := 'p') (expected_getLast v) (by decide)

theorem lowerStr_expected (v : Str) :
    lowerStr (expected_proxy_line v) =
      ("proxycommand /usr/bin/nc -x connect -x ".toList) ++ lowerStr v ++
        (" %h %p".toList) := by
  rw [expected_proxy_line, lowerStr_append, lowerStr_append]
  rfl

theorem is_host_line_formatted {ind : Str} (v : Str) (hws : IsWsStr ind) :
    is_host_line (ind ++ expected_proxy_line v) = false := by
  rw [is_host_line, trimStart_formatted v hws, lowerStr_expected]
  rfl

theorem is_proxy_directive_formatted {ind : Str} (v : Str) (hws : IsWsStr ind) :
    is_proxy_directive_line (ind ++ expected_proxy_line v) = true := by
  rw [is_proxy_directive_line, trimStart_formatted v hws, lowerStr_expected]
  rw [ isPrefixOf_iff_prefix, append_assoc]
  exact IsPrefix.trans ⟨("/usr/bin/nc -x connect -x ".toList), rfl⟩ (prefix_append _ _)

theorem line_indent_formatted {ind : Str} (v : Str) (hws : IsWsStr ind) :
    line_indent (ind ++ expected_proxy_line v) = ind := by
  rw [line_indent, takeWhile_append_all hws, expected_cons, takeWhile_cons]
  rw [show isWsChar 'P' = false from rfl]
  simp

theorem noNl_formatted {ind v : Str} (hind : '\n' ∉ ind) (hv : '\n' ∉ v) :
    '\n' ∉ ind ++ expected_proxy_line v := by
  intro hm
  rcases mem_append.mp hm with hm | hm
  · exact hind hm
  · rw [expected_proxy_line] at hm
    rcases mem_append.mp hm with hm | hm
    · rcases mem_append.mp hm with hm | hm
      · exact absurd hm (by decide)
      · exact hv hm
    · exact absurd hm (by decide)

theorem formatted_ne_nil {ind v : Str} : ind ++ expected_proxy_line v ≠ [] := by
  rw [expected_proxy_line]
  simp

theorem indent_candidate_formatted {ind : Str} (v : Str) (hws : IsWsStr ind)
    (hne : ind ≠ []) : indent_candidate (ind ++ expected_proxy_line v) = true := by
  obtain ⟨a, t, rfl⟩ : ∃ a t, ind = a :: t := by
    cases ind with
    | nil => exact absurd rfl hne
    | cons a t => exact ⟨a, t, rfl⟩
  have hte : trimEnd ((a :: t) ++ expected_proxy_line v) = (a :: t) ++ expected_proxy_line v := by
    refine trimEnd_getLast (c := 'p') ?hl (by decide)
    rw [getLast?_append, expected_getLast v]
    rfl
  have hne2 : ('#' == a) = false :=
    beq_eq_false_iff_ne.mpr (fun he => (ws_ne_hash (hws a (mem_cons_self a t))) he.symm)
  have h3 : line_indent ((a :: t) ++ expected_proxy_line v) = a :: t :=
    line_indent_formatted v hws
  rw [indent_candidate, hte, h3]
  show (!(a :: (t ++ expected_proxy_line v)).isEmpty &&
    !(('#' :: ([] : Str)).isPrefixOf (a :: (t ++ expected_proxy_line v))) &&
    !(a :: t).isEmpty) = true
  simp [List.isPrefixOf, hne2]

theorem determine_insert {body : List Str} {ind : Str} (v : Str)
    (hd : determine_block_indent body = ind) :
    determine_block_indent ((ind ++ expected_proxy_line v) :: body) = ind := by
  have hws : IsWsStr ind := hd ▸ determine_ws body
  have hne : ind ≠ [] := hd ▸ determine_ne_nil body
  rw [determine_block_indent, if_pos (indent_candidate_formatted v hws hne)]
  exact line_indent_formatted v hws

theorem determine_replace {x ind : Str} (v : Str) :
    ∀ {pre rest : List Str}, determine_block_indent (pre ++ x :: rest) = ind →
      determine_block_indent (pre ++ (ind ++ expected_proxy_line v) :: rest) = ind
  | [], rest, hd => by
    have hws : IsWsStr ind := hd ▸ determine_ws _
    have hne : ind ≠ [] := hd ▸ determine_ne_nil _
    rw [nil_append, determine_block_indent,
      if_pos (indent_candidate_formatted v hws hne)]
    exact line_indent_formatted v hws
  | p :: pre', rest, hd => by
    rw [cons_append, determine_block_indent] at hd ⊢
    by_cases hc : indent_candidate p
    · rwa [if_pos hc] at hd ⊢
    · rw [if_neg hc] at hd ⊢
      exact determine_replace v hd

theorem determine_noNl :
    ∀ {body : List Str}, (∀ l ∈ body, '\n' ∉ l) → '\n' ∉ determine_block_indent body
  | [], _ => by rw [determine_block_indent]; decide
  | l :: rest, h => by
    rw [determine_block_indent]
    by_cases hc : indent_candidate l
    · rw [if_pos hc]
      intro hm
      exact h l (mem_cons_self l rest) ((takeWhile_sublist _).subset hm)
    · rw [if_neg hc]
      exact determine_noNl (fun x hx => h x (mem_cons_of_mem l hx))

/-! ### processBlock case lemmas -/

theorem processBlock_conflict {m : Str → Option Str} {hl : Str} (body : List Str)
    (h : line_conflicts m hl = true) :
    processBlock m hl body = .error (.conflict (trim hl)) := by
  rw [line_conflicts] at h
  cases hm : matched_proxies m (host_patterns_from_line hl) with
  | nil => rw [hm] at h; simp at h
  | cons first restM =>
    rw [hm] at h
    have h' : ((first :: restM).any fun v => v != first) = true := h
    simp only [processBlock, hm, h', if_true]

theorem processBlock_ok_of_not_conflict {m : Str → Option Str} {hl : Str} (body : List Str)
    (h : line_conflicts m hl = false) :
    ∃ out ch, processBlock m hl body = .ok (out, ch) := by
  rw [line_conflicts] at h
  cases hm : matched_proxies m (host_patterns_from_line hl) with
  | nil =>
    refine ⟨hl :: body, false, ?_⟩
    simp only [processBlock, hm]
  | cons first restM =>
    rw [hm] at h
    have h' : ((first :: restM).any fun v => v != first) = false := h
    cases hd : body.dropWhile (fun l => ! is_proxy_directive_line l) with
    | nil =>
      refine ⟨hl :: (determine_block_indent body ++ expected_proxy_line first) :: body,
        true, ?_⟩
      simp only [processBlock, hm, hd, h', Bool.false_eq_true, if_false]
    | cons x restB =>
      by_cases hx : trim x ≠ expected_proxy_line first ∨
          x ≠ determine_block_indent body ++ expected_proxy_line first
      · have heq : processBlock m hl body = .ok (hl ::
            (body.takeWhile (fun l => ! is_proxy_directive_line l)
              ++ (determine_block_indent body ++ expected_proxy_line first) :: restB),
            true) := by
          simp only [processBlock, hm, hd, h', Bool.false_eq_true, if_false]
          rw [if_pos hx]
        exact ⟨_, _, heq⟩
      · have heq : processBlock m hl body = .ok (hl :: body, false) := by
          simp only [processBlock, hm, hd, h', Bool.false_eq_true, if_false]
          rw [if_neg hx]
        exact ⟨_, _, heq⟩

theorem processBlock_error_conflict {m : Str → Option Str} {hl : Str} {body : List Str}
    {e : SshErr} (hpb : processBlock m hl body = .error e) :
    line_conflicts m hl = true ∧ e = .conflict (trim hl) := by
  cases hm : matched_proxies m (host_patterns_from_line hl) with
  | nil =>
    simp only [processBlock, hm] at hpb
    exact Except.noConfusion hpb
  | cons first restM =>
    simp only [processBlock, hm] at hpb
    by_cases ha : ((first :: restM).any fun v => v != first) = true
    · rw [if_pos ha] at hpb
      have he : e = .conflict (trim hl) := by
        cases hpb
        rfl
      refine ⟨?_, he⟩
      rw [line_conflicts, hm]
      exact ha
    · rw [if_neg ha] at hpb
      exfalso
      cases hd : body.dropWhile (fun l => ! is_proxy_directive_line l) with
      | nil => rw [hd] at hpb; simp at hpb
      | cons x restB =>
        rw [hd] at hpb
        have hpb2 : (if trim x ≠ expected_proxy_line first ∨
            x ≠ determine_block_indent body ++ expected_proxy_line first then
            (Except.ok (hl :: (body.takeWhile (fun l => ! is_proxy_directive_line l)
              ++ (determine_block_indent body ++ expected_proxy_line first) :: restB), true)
              : Except SshErr (List Str × Bool))
          else Except.ok (hl :: body, false)) = Except.error e := hpb
        split at hpb2 <;> exact Except.noConfusion hpb2

theorem matched_first_mem {m : Str → Option Str} {pats : List Str} {first : Str}
    {restM : List Str} (hm : matched_proxies m pats = first :: restM) :
    ∃ p, m p = some first := by
  have h1 : first ∈ matched_proxies m pats := by rw [hm]; exact mem_cons_self _ _
  rw [matched_proxies] at h1
  obtain ⟨a, _, ha⟩ := mem_filterMap.mp h1
  exact ⟨lowerStr a, ha⟩

theorem processBlock_main {m : Str → Option Str} {hl : Str} {body out : List Str} {ch : Bool}
    (hpb : processBlock m hl body = .ok (out, ch)) :
    ∃ nb, out = hl :: nb ∧
      processBlock m hl nb = .ok (hl :: nb, false) ∧
      (∀ l ∈ nb, l ∈ body ∨ ∃ v, (∃ p, m p = some v) ∧
        l = determine_block_indent body ++ expected_proxy_line v) ∧
      (nb.getLast? = body.getLast? ∨ ∃ v, (∃ p, m p = some v) ∧
        nb.getLast? = some (determine_block_indent body ++ expected_proxy_line v)) ∧
      (ch = false → nb = body) := by
  cases hm : matched_proxies m (host_patterns_from_line hl) with
  | nil =>
    have heq : processBlock m hl body = .ok (hl :: body, false) := by
      simp only [processBlock, hm]
    rw [hpb] at heq
    obtain ⟨h1, h2⟩ := Prod.mk.injEq .. ▸ Except.ok.inj heq
    refine ⟨body, h1, ?_, fun l hlm => Or.inl hlm, Or.inl rfl, fun _ => rfl⟩
    simp only [processBlock, hm]
  | cons first restM =>
    have hv : ∃ p, m p = some first := matched_first_mem hm
    have hws : IsWsStr (determine_block_indent body) := determine_ws body
    have hdir : is_proxy_directive_line
        (determine_block_indent body ++ expected_proxy_line first) = true :=
      is_proxy_directive_formatted first hws
    by_cases ha : ((first :: restM).any fun v => v != first) = true
    · have heq : processBlock m hl body = .error (.conflict (trim hl)) := by
        simp only [processBlock, hm]
        rw [if_pos ha]
      rw [hpb] at heq
      exact Except.noConfusion heq
    · cases hd : body.dropWhile (fun l => ! is_proxy_directive_line l) with
      | nil =>
        have heq : processBlock m hl body = .ok (hl ::
            (determine_block_indent body ++ expected_proxy_line first) :: body, true) := by
          simp only [processBlock, hm, hd]
          rw [if_neg ha]
        rw [hpb] at heq
        obtain ⟨h1, h2⟩ := Prod.mk.injEq .. ▸ Except.ok.inj heq
        subst h2
        refine ⟨(determine_block_indent body ++ expected_proxy_line first) :: body,
          h1, ?_, ?_, ?_, fun hff => by cases hff⟩
        · have hd2 : ((determine_block_indent body ++ expected_proxy_line first) ::
              body).dropWhile (fun l => ! is_proxy_directive_line l) =
              (determine_block_indent body ++ expected_proxy_line first) :: body := by
            rw [dropWhile_cons, hdir]
            simp
          have hdet2 := determine_insert first (Eq.refl (determine_block_indent body))
          simp only [processBlock, hm, hd2]
          rw [if_neg ha, if_neg]
          rw [trim_formatted first hws, hdet2]
          simp
        · intro l hlm
          rcases mem_cons.mp hlm with rfl | hlm
          · exact Or.inr ⟨first, hv, rfl⟩
          · exact Or.inl hlm
        · cases hbody : body with
          | nil => exact Or.inr ⟨first, hv, rfl⟩
          | cons b bt =>
            left
            rw [getLast?_cons_cons]
      | cons x restB =>
        have htd : body.takeWhile (fun l => ! is_proxy_directive_line l) ++ x :: restB
            = body := by
          conv_rhs => rw [← takeWhile_append_dropWhile
            (p := fun l => ! is_proxy_directive_line l) (l := body)]
          rw [hd]
        have hpre : ∀ l ∈ body.takeWhile (fun l => ! is_proxy_directive_line l),
            (! is_proxy_directive_line l) = true := fun l hlm =>
          mem_takeWhile_imp (p := fun y => ! is_proxy_directive_line y) hlm
        by_cases hx : trim x ≠ expected_proxy_line first ∨
            x ≠ determine_block_indent body ++ expected_proxy_line first
        · have heq : processBlock m hl body = .ok (hl ::
              (body.takeWhile (fun l => ! is_proxy_directive_line l) ++
                (determine_block_indent body ++ expected_proxy_line first) :: restB),
              true) := by
            simp only [processBlock, hm, hd]
            rw [if_neg ha, if_pos hx]
          rw [hpb] at heq
          obtain ⟨h1, h2⟩ := Prod.mk.injEq .. ▸ Except.ok.inj heq
          subst h2
          have hdet : determine_block_indent (body.takeWhile
              (fun l => ! is_proxy_directive_line l) ++
              (determine_block_indent body ++ expected_proxy_line first) :: restB) =
              determine_block_indent body := by
            refine determine_replace (x := x) first ?_
            rw [htd]
          refine ⟨body.takeWhile (fun l => ! is_proxy_directive_line l) ++
            (determine_block_indent body ++ expected_proxy_line first) :: restB,
            h1, ?_, ?_, ?_, fun hff => by cases hff⟩
          · have hd2 : (body.takeWhile (fun l => ! is_proxy_directive_line l) ++
                (determine_block_indent body ++ expected_proxy_line first) ::
                  restB).dropWhile (fun l => ! is_proxy_directive_line l) =
                (determine_block_indent body ++ expected_proxy_line first) :: restB := by
              rw [dropWhile_append_all hpre, dropWhile_cons, hdir]
              simp
            have ht2 : (body.takeWhile (fun l => ! is_proxy_directive_line l) ++
                (determine_block_indent body ++ expected_proxy_line first) ::
                  restB).takeWhile (fun l => ! is_proxy_directive_line l) =
                body.takeWhile (fun l => ! is_proxy_directive_line l) := by
              rw [takeWhile_append_all hpre, takeWhile_cons, hdir]
              simp
            simp only [processBlock, hm, hd2]
            rw [if_neg ha, if_neg]
            rw [trim_formatted first hws, hdet]
            simp
          · intro l hlm
            rcases mem_append.mp hlm with hlm | hlm
            · exact Or.inl ((takeWhile_sublist _).subset hlm)
            · rcases mem_cons.mp hlm with rfl | hlm
              · exact Or.inr ⟨first, hv, rfl⟩
              · refine Or.inl ?_
                rw [← htd]
                exact mem_append.mpr (Or.inr (mem_cons_of_mem x hlm))
          · cases hrb : restB with
            | nil =>
              right
              refine ⟨first, hv, ?_⟩
              rw [getLast?_append]
              rfl
            | cons r rt =>
              left
              subst hrb
              have hb : body.getLast? = (r :: rt).getLast?.or
                  ((body.takeWhile (fun l => ! is_proxy_directive_line l)).getLast?) := by
                conv_lhs => rw [← htd]
                rw [getLast?_append, getLast?_cons_cons]
              rw [getLast?_append, getLast?_cons_cons, hb]
        · have heq : processBlock m hl body = .ok (hl :: body, false) := by
            simp only [processBlock, hm, hd]
            rw [if_neg ha, if_neg hx]
          rw [hpb] at heq
          obtain ⟨h1, h2⟩ := Prod.mk.injEq .. ▸ Except.ok.inj heq
          subst h2
          refine ⟨body, h1, ?_, fun l hlm => Or.inl hlm, Or.inl rfl, fun _ => rfl⟩
          have heq2 : processBlock m hl body = .ok (hl :: body, false) := by
            simp only [processBlock, hm, hd]
            rw [if_neg ha, if_neg hx]
          exact heq2

/-! ### processAddF lemmas -/

theorem dropWhile_head_false {α : Type} {p : α → Bool} :
    ∀ {l : List α} {a : α} {t : List α}, l.dropWhile p = a :: t → p a = false
  | [], a, t, h => by simp at h
  | x :: xs, a, t, h => by
    rw [dropWhile_cons] at h
    by_cases hx : p x = true
    · rw [if_pos hx] at h
      exact dropWhile_head_false h
    · rw [if_neg hx] at h
      obtain ⟨rfl, _⟩ := cons.injEq .. ▸ h
      exact Bool.not_eq_true _ ▸ hx

theorem is_host_line_nil : is_host_line ([] : Str) = false := rfl

theorem host_line_ne_nil {l : Str} (h : is_host_line l = true) : l ≠ [] := by
  intro he
  rw [he, is_host_line_nil] at h
  exact Bool.noConfusion h

theorem processAddF_fuel {m : Str → Option Str} :
    ∀ {f1 f2 : Nat} {lines : List Str}, lines.length < f1 → lines.length < f2 →
      processAddF m f1 lines = processAddF m f2 lines
  | 0, _, _, h1, _ => absurd h1 (by omega)
  | _ + 1, 0, _, _, h2 => absurd h2 (by omega)
  | _ + 1, _ + 1, [], _, _ => rfl
  | f1 + 1, f2 + 1, l :: rest, h1, h2 => by
    have hr1 : rest.length < f1 := by
      rw [length_cons] at h1; omega
    have hr2 : rest.length < f2 := by
      rw [length_cons] at h2; omega
    have ha1 : (rest.dropWhile (fun x => ! is_host_line x)).length < f1 :=
      lt_of_le_of_lt (Sublist.length_le (dropWhile_sublist _)) hr1
    have ha2 : (rest.dropWhile (fun x => ! is_host_line x)).length < f2 :=
      lt_of_le_of_lt (Sublist.length_le (dropWhile_sublist _)) hr2
    simp only [processAddF]
    by_cases hh : is_host_line l = true
    · rw [if_pos hh, if_pos hh, processAddF_fuel ha1 ha2]
    · rw [if_neg hh, if_neg hh, processAddF_fuel hr1 hr2]

theorem head?_eq_cons {α : Type} {l : List α} {a : α} (h : l.head? = some a) :
    ∃ t, l = a :: t := by
  cases l with
  | nil => simp at h
  | cons x t =>
    obtain rfl : x = a := by simpa using h
    exact ⟨t, rfl⟩

theorem processAddF_eq {m : Str → Option Str} {f : Nat} {lines : List Str}
    (hf : lines.length < f) : processAddF m f lines = processAdd m lines :=
  processAddF_fuel hf (Nat.lt_succ_self _)

theorem processAdd_nil (m : Str → Option Str) : processAdd m [] = .ok ([], false) := rfl

theorem processAdd_cons_host {m : Str → Option Str} {l : Str} {rest : List Str}
    (hh : is_host_line l = true) :
    processAdd m (l :: rest) =
      (match processBlock m l (rest.takeWhile (fun x => ! is_host_line x)) with
      | .error e => .error e
      | .ok (blk, ch1) =>
        match processAdd m (rest.dropWhile (fun x => ! is_host_line x)) with
        | .error e => .error e
        | .ok (tl, ch2) => .ok (blk ++ tl, ch1 || ch2)) := by
  rw [processAdd, show ((l :: rest).length + 1 : Nat) = (rest.length + 1) + 1 from by
    rw [length_cons]]
  simp only [processAddF]
  rw [if_pos hh,
    processAddF_eq (lt_of_le_of_lt (Sublist.length_le (dropWhile_sublist _))
      (Nat.lt_succ_self _))]

theorem processAdd_cons_nonhost {m : Str → Option Str} {l : Str} {rest : List Str}
    (hh : is_host_line l = false) :
    processAdd m (l :: rest) =
      (match processAdd m rest with
      | .error e => .error e
      | .ok (tl, ch) => .ok (l :: tl, ch)) := by
  rw [processAdd, show ((l :: rest).length + 1 : Nat) = (rest.length + 1) + 1 from by
    rw [length_cons]]
  simp only [processAddF]
  rw [if_neg (by rw [hh]; exact Bool.noConfusion),
    processAddF_eq (Nat.lt_succ_self _)]

theorem processAdd_main {m : Str → Option Str} :
    ∀ {f : Nat} {lines out : List Str} {ch : Bool}, lines.length < f →
      processAdd m lines = .ok (out, ch) →
      out.head? = lines.head? ∧
      processAdd m out = .ok (out, false) ∧
      ((∀ l ∈ lines, '\n' ∉ l) → (∀ p v, m p = some v → '\n' ∉ v) →
        ∀ l ∈ out, '\n' ∉ l) ∧
      (out.getLast? = lines.getLast? ∨
        ∃ v ind, IsWsStr ind ∧ out.getLast? = some (ind ++ expected_proxy_line v)) ∧
      (ch = false → out = lines) ∧
      (ch = true → ∃ l ∈ out, l ≠ [])
  | 0, lines, _, _, hf, _ => absurd hf (by omega)
  | f + 1, [], out, ch, _, h => by
    have heq : processAdd m ([] : List Str) = .ok ([], false) := rfl
    rw [h] at heq
    obtain ⟨h1, h2⟩ := Prod.mk.injEq .. ▸ Except.ok.inj heq
    subst h2
    refine ⟨by rw [h1], by rw [h1]; rfl, ?_, ?_, fun _ => h1, fun hff => by cases hff⟩
    · intro _ _ l hlm
      rw [h1] at hlm
      exact absurd hlm (not_mem_nil l)
    · rw [h1]
      exact Or.inl rfl
  | f + 1, l :: rest, out, ch, hf, h => by
    have hr : rest.length < f := by rw [length_cons] at hf; omega
    by_cases hh : is_host_line l = true
    · have ha : (rest.dropWhile (fun x => ! is_host_line x)).length < f :=
        lt_of_le_of_lt (Sublist.length_le (dropWhile_sublist _)) hr
      cases hpb : processBlock m l (rest.takeWhile (fun x => ! is_host_line x)) with
      | error e =>
        have heq : processAdd m (l :: rest) = .error e := by
          rw [processAdd_cons_host hh, hpb]
        rw [h] at heq
        exact Except.noConfusion heq
      | ok blkp =>
        obtain ⟨blk, ch1⟩ := blkp
        cases hrec : processAdd m (rest.dropWhile (fun x => ! is_host_line x)) with
        | error e =>
          have heq : processAdd m (l :: rest) = .error e := by
            rw [processAdd_cons_host hh, hpb, hrec]
          rw [h] at heq
          exact Except.noConfusion heq
        | ok tlp =>
          obtain ⟨tl, ch2⟩ := tlp
          have heq : processAdd m (l :: rest) = .ok (blk ++ tl, ch1 || ch2) := by
            rw [processAdd_cons_host hh, hpb, hrec]
          rw [h] at heq
          obtain ⟨h1, h2⟩ := Prod.mk.injEq .. ▸ Except.ok.inj heq
          obtain ⟨nb, hblk, hidem, hmem, hlast, hchf⟩ := processBlock_main hpb
          obtain ⟨ihhead, ihidem, ihnl, ihlast, ihchf, ihcht⟩ := processAdd_main ha hrec
          subst hblk
          have hout : out = l :: (nb ++ tl) := by rw [h1, cons_append]
          have hbody_nonhost : ∀ x ∈ rest.takeWhile (fun x => ! is_host_line x),
              is_host_line x = false := fun x hx => by
            have := mem_takeWhile_imp (p := fun y => ! is_host_line y) hx
            simpa using this
          have hnb_nonhost : ∀ x ∈ nb, is_host_line x = false := by
            intro x hx
            rcases hmem x hx with hxm | ⟨v, _, hxf⟩
            · exact hbody_nonhost x hxm
            · rw [hxf]
              exact is_host_line_formatted v (determine_ws _)
          have htl_shape : tl = [] ∨ ∃ a t2, tl = a :: t2 ∧ is_host_line a = true := by
            cases htl : tl with
            | nil => exact Or.inl rfl
            | cons a t2 =>
              refine Or.inr ⟨a, t2, rfl, ?_⟩
              have hah : (rest.dropWhile (fun x => ! is_host_line x)).head? = some a := by
                rw [← ihhead, htl]
                rfl
              obtain ⟨t3, ht3⟩ := head?_eq_cons hah
              have := dropWhile_head_false (p := fun x => ! is_host_line x) ht3
              simpa using this
          have htw : (nb ++ tl).takeWhile (fun x => ! is_host_line x) = nb := by
            rw [takeWhile_append_all (fun x hx => by simp [hnb_nonhost x hx])]
            rcases htl_shape with rfl | ⟨a, t2, rfl, hahost⟩
            · simp
            · rw [takeWhile_cons]
              simp [hahost]
          have hdw : (nb ++ tl).dropWhile (fun x => ! is_host_line x) = tl := by
            rw [dropWhile_append_all (fun x hx => by simp [hnb_nonhost x hx])]
            rcases htl_shape with rfl | ⟨a, t2, rfl, hahost⟩
            · simp
            · rw [dropWhile_cons]
              simp [hahost]
          have hrest_split : rest.takeWhile (fun x => ! is_host_line x) ++
              rest.dropWhile (fun x => ! is_host_line x) = rest :=
            takeWhile_append_dropWhile _ rest
          refine ⟨?_, ?_, ?_, ?_, ?_, ?_⟩
          · rw [hout]; rfl
          · rw [hout, processAdd_cons_host hh, htw, hdw, hidem, ihidem]
            rfl
          · intro hnl hmv x hx
            rw [hout] at hx
            rcases mem_cons.mp hx with rfl | hx
            · exact hnl x (mem_cons_self x rest)
            · rcases mem_append.mp hx with hx | hx
              · rcases hmem x hx with hxm | ⟨v, ⟨p, hp⟩, hxf⟩
                · exact hnl x (mem_cons_of_mem l ((takeWhile_sublist _).subset hxm))
                · rw [hxf]
                  refine noNl_formatted ?_ (hmv p v hp)
                  refine determine_noNl ?_
                  intro y hy
                  exact hnl y (mem_cons_of_mem l ((takeWhile_sublist _).subset hy))
              · refine ihnl ?_ hmv x hx
                intro y hy
                exact hnl y (mem_cons_of_mem l ((dropWhile_sublist _).subset hy))
          · rcases htl_shape with rfl | ⟨a, t2, rfl, _⟩
            · have hafter : rest.dropWhile (fun x => ! is_host_line x) = [] := by
                have h0 : ([] : List Str).head? =
                    (rest.dropWhile (fun x => ! is_host_line x)).head? := ihhead
                cases hda : rest.dropWhile (fun x => ! is_host_line x) with
                | nil => rfl
                | cons b bt => rw [hda] at h0; simp at h0
              have hrest : rest = rest.takeWhile (fun x => ! is_host_line x) := by
                conv_lhs => rw [← hrest_split]
                rw [hafter, append_nil]
              rw [hout, append_nil]
              rcases hlast with hlast | ⟨v, hvex, hlast⟩
              · left
                rw [getLast?_cons, getLast?_cons, hlast, ← hrest]
              · right
                refine ⟨v, determine_block_indent (rest.takeWhile
                  (fun x => ! is_host_line x)), determine_ws _, ?_⟩
                rw [getLast?_cons, hlast]
                rfl
            · have hah : (rest.dropWhile (fun x => ! is_host_line x)).head? = some a := by
                rw [← ihhead]; rfl
              obtain ⟨t3, ht3⟩ := head?_eq_cons hah
              have hlines_last : (l :: rest).getLast? =
                  (rest.dropWhile (fun x => ! is_host_line x)).getLast? := by
                rw [getLast?_cons]
                conv_lhs => rw [← hrest_split]
                rw [getLast?_append, ht3]
                simp [getLast?_cons]
              have hout_last : out.getLast? = (a :: t2).getLast? := by
                rw [hout, getLast?_cons, getLast?_append]
                simp [getLast?_cons]
              rcases ihlast with ihl | ⟨v, ind, hws, ihl⟩
              · left
                rw [hout_last, ihl, hlines_last]
              · right
                exact ⟨v, ind, hws, by rw [hout_last, ihl]⟩
          · intro hch
            rw [h2, Bool.or_eq_false_iff] at hch
            rw [hout, hchf hch.1, ihchf hch.2, hrest_split]
          · intro _
            refine ⟨l, ?_, host_line_ne_nil hh⟩
            rw [hout]
            exact mem_cons_self _ _
    · have hh2 : is_host_line l = false := by
        cases hb : is_host_line l with
        | false => rfl
        | true => exact absurd hb hh
      cases hrec : processAdd m rest with
      | error e =>
        have heq : processAdd m (l :: rest) = .error e := by
          rw [processAdd_cons_nonhost hh2, hrec]
        rw [h] at heq
        exact Except.noConfusion heq
      | ok tlp =>
        obtain ⟨tl, ch2⟩ := tlp
        have heq : processAdd m (l :: rest) = .ok (l :: tl, ch2) := by
          rw [processAdd_cons_nonhost hh2, hrec]
        rw [h] at heq
        obtain ⟨h1, h2⟩ := Prod.mk.injEq .. ▸ Except.ok.inj heq
        subst h2
        obtain ⟨ihhead, ihidem, ihnl, ihlast, ihchf, ihcht⟩ := processAdd_main hr hrec
        refine ⟨by rw [h1]; rfl, ?_, ?_, ?_, ?_, ?_⟩
        · rw [h1, processAdd_cons_nonhost hh2, ihidem]
        · intro hnl hmv x hx
          rw [h1] at hx
          rcases mem_cons.mp hx with rfl | hx
          · exact hnl x (mem_cons_self x rest)
          · exact ihnl (fun y hy => hnl y (mem_cons_of_mem l hy)) hmv x hx
        · rw [h1]
          rcases ihlast with ihl | ⟨v, ind, hws, ihl⟩
          · left
            rw [getLast?_cons, getLast?_cons, ihl]
          · right
            exact ⟨v, ind, hws, by rw [getLast?_cons, ihl]; rfl⟩
        · intro hch
          rw [h1, ihchf hch]
        · intro hch
          obtain ⟨x, hx, hxne⟩ := ihcht hch
          exact ⟨x, by rw [h1]; exact mem_cons_of_mem l hx, hxne⟩

theorem processAdd_error_of_conflict {m : Str → Option Str} :
    ∀ {f : Nat} {lines : List Str}, lines.length < f →
      (∃ l ∈ lines, is_host_line l = true ∧ line_conflicts m l = true) →
      ∃ hl, hl ∈ lines ∧ is_host_line hl = true ∧ line_conflicts m hl = true ∧
        processAdd m lines = .error (.conflict (trim hl))
  | 0, _, hf, _ => absurd hf (by omega)
  | _ + 1, [], _, hw => by
    obtain ⟨w, hwm, _⟩ := hw
    exact absurd hwm (not_mem_nil w)
  | f + 1, l :: rest, hf, hw => by
    have hr : rest.length < f := by rw [length_cons] at hf; omega
    by_cases hh : is_host_line l = true
    · by_cases hcf : line_conflicts m l = true
      · refine ⟨l, mem_cons_self l rest, hh, hcf, ?_⟩
        rw [processAdd_cons_host hh,
          processBlock_conflict (rest.takeWhile (fun x => ! is_host_line x)) hcf]
      · have hcf2 : line_conflicts m l = false := by
          cases hb : line_conflicts m l with
          | false => rfl
          | true => exact absurd hb hcf
        obtain ⟨w, hwm, hwh, hwc⟩ := hw
        have hwrest : w ∈ rest := by
          rcases mem_cons.mp hwm with rfl | hwm2
          · exact absurd hwc hcf
          · exact hwm2
        have hwafter : w ∈ rest.dropWhile (fun x => ! is_host_line x) := by
          have hsplit := takeWhile_append_dropWhile (fun x => ! is_host_line x) rest
          rw [← hsplit] at hwrest
          rcases mem_append.mp hwrest with hwb | hwa
          · exfalso
            have hcontra := mem_takeWhile_imp (p := fun y => ! is_host_line y) hwb
            simp only [Bool.not_eq_true'] at hcontra
            rw [hwh] at hcontra
            exact Bool.noConfusion hcontra
          · exact hwa
        have ha : (rest.dropWhile (fun x => ! is_host_line x)).length < f :=
          lt_of_le_of_lt (Sublist.length_le (dropWhile_sublist _)) hr
        obtain ⟨hl2, hmem2, hhost2, hcf3, herr2⟩ :=
          processAdd_error_of_conflict ha ⟨w, hwafter, hwh, hwc⟩
        obtain ⟨out1, ch1, hok1⟩ := processBlock_ok_of_not_conflict
          (rest.takeWhile (fun x => ! is_host_line x)) hcf2
        refine ⟨hl2, mem_cons_of_mem l ((dropWhile_sublist _).subset hmem2),
          hhost2, hcf3, ?_⟩
        rw [processAdd_cons_host hh, hok1, herr2]
    · have hh2 : is_host_line l = false := by
        cases hb : is_host_line l with
        | false => rfl
        | true => exact absurd hb hh
      obtain ⟨w, hwm, hwh, hwc⟩ := hw
      have hwrest : w ∈ rest := by
        rcases mem_cons.mp hwm with rfl | hwm2
        · rw [hwh] at hh2; exact Bool.noConfusion hh2
        · exact hwm2
      obtain ⟨hl2, hmem2, hhost2, hcf3, herr2⟩ :=
        processAdd_error_of_conflict hr ⟨w, hwrest, hwh, hwc⟩
      refine ⟨hl2, mem_cons_of_mem l hmem2, hhost2, hcf3, ?_⟩
      rw [processAdd_cons_nonhost hh2, herr2]

/-! ### File-level lemmas for add_ssh_hosts -/

theorem create_backup_config (s : FsState) : (create_backup s).1.sshConfig = s.sshConfig := by
  cases hc : s.sshConfig with
  | none => simp [create_backup, hc]
  | some c => simp [create_backup, hc]

theorem create_backup_no_configWrite (s : FsState) :
    ∀ c, FsEvent.configWrite c ∉ (create_backup s).2 := by
  intro c hm
  cases hc : s.sshConfig with
  | none => rw [create_backup, hc] at hm; exact absurd hm (not_mem_nil _)
  | some c0 =>
    rw [create_backup, hc] at hm
    simp only [mem_singleton] at hm
    exact FsEvent.noConfusion hm

theorem host_proxy_map_noNl {entries : List HostEntry} {proxyHost : Str}
    (hd : '\n' ∉ proxyHost) (he : ∀ e ∈ entries, ∀ v, e.proxy = some v → '\n' ∉ v) :
    ∀ p v, host_proxy_map entries proxyHost p = some v → '\n' ∉ v := by
  intro p v h
  rw [host_proxy_map] at h
  cases hf : entries.reverse.find? (fun e => lowerStr e.pattern == p) with
  | none => rw [hf] at h; exact Option.noConfusion h
  | some e =>
    rw [hf] at h
    have hmem : e ∈ entries := mem_reverse.mp (mem_of_find?_eq_some hf)
    have hv : v = e.proxy.getD proxyHost := by
      simpa using h.symm
    cases hp : e.proxy with
    | none => rw [hv, hp]; exact hd
    | some w =>
      rw [hv, hp]
      exact he e hmem w hp

theorem line_conflicts_empty_map {dflt : Str} {l : Str} :
    line_conflicts (host_proxy_map [] dflt) l = false := by
  rw [line_conflicts]
  have hm : matched_proxies (host_proxy_map [] dflt) (host_patterns_from_line l) = [] := by
    rw [matched_proxies, filterMap_eq_nil_iff]
    intro p _
    rfl
  rw [hm]

theorem add_ssh_hosts_no_change {entries : List HostEntry} {proxyHost : Str} {s : FsState}
    {ls : List Str} (hne : entries ≠ [])
    (hnc : processAdd (host_proxy_map entries proxyHost)
      (collect_lines (s.sshConfig.getD [])) = .ok (ls, false)) :
    add_ssh_hosts entries proxyHost s =
      ((create_backup s).1, (create_backup s).2, none) := by
  rw [add_ssh_hosts, if_neg hne, hnc]
  rfl

theorem add_ssh_hosts_error {entries : List HostEntry} {proxyHost : Str} {s : FsState}
    {e : SshErr} (hne : entries ≠ [])
    (herr : processAdd (host_proxy_map entries proxyHost)
      (collect_lines (s.sshConfig.getD [])) = .error e) :
    add_ssh_hosts entries proxyHost s =
      ((create_backup s).1, (create_backup s).2, some e) := by
  rw [add_ssh_hosts, if_neg hne, herr]

theorem add_ssh_hosts_changed {entries : List HostEntry} {proxyHost : Str} {s : FsState}
    {ls : List Str} (hne : entries ≠ [])
    (hch : processAdd (host_proxy_map entries proxyHost)
      (collect_lines (s.sshConfig.getD [])) = .ok (ls, true)) :
    add_ssh_hosts entries proxyHost s =
      ({ (create_backup s).1 with
          sshConfig := some (new_ssh_content (endsWithNl (s.sshConfig.getD [])) ls) },
        (create_backup s).2 ++
          [.configWrite (new_ssh_content (endsWithNl (s.sshConfig.getD [])) ls)], none) := by
  rw [add_ssh_hosts, if_neg hne, hch]
  rfl

theorem ls_nonempty_getLast {ls : List Str} (hne : ls ≠ []) : ∃ t, ls.getLast? = some t := by
  cases ls with
  | nil => exact absurd rfl hne
  | cons a t => exact ⟨t.getLast?.getD a, getLast?_cons⟩

theorem add_changed_content {m : Str → Option Str} {c : Str} {ls : List Str}
    (hla : processAdd m (collect_lines c) = .ok (ls, true)) :
    new_ssh_content (endsWithNl c) ls ≠ [] ∧
    endsWithNl (new_ssh_content (endsWithNl c) ls) = endsWithNl c ∧
    ((∀ p v, m p = some v → '\n' ∉ v) →
      collect_lines (new_ssh_content (endsWithNl c) ls) = ls ∧
      processAdd m ls = .ok (ls, false)) := by
  obtain ⟨hhead, hidem, hnl, hlast, hchf, hcht⟩ :=
    processAdd_main (Nat.lt_succ_self _) hla
  obtain ⟨w, hwm, hwne⟩ := hcht rfl
  have hlsne : ls ≠ [] := fun he => (he ▸ not_mem_nil w) hwm
  have hjne : joinNl ls ≠ [] := joinNl_ne_nil hwm hwne
  have hjempty : (joinNl ls).isEmpty = false := by
    cases hj : joinNl ls with
    | nil => exact absurd hj hjne
    | cons a t => rfl
  have hcne : c ≠ [] := by
    intro hce
    rw [hce] at hla
    have h0 : processAdd m (collect_lines []) = .ok ([], false) := rfl
    rw [hla] at h0
    obtain ⟨_, h2⟩ := Prod.mk.injEq .. ▸ Except.ok.inj h0
    exact Bool.noConfusion h2
  obtain ⟨t, hgt⟩ := ls_nonempty_getLast hlsne
  rw [new_ssh_content, hjempty, Bool.or_false]
  cases hnlc : endsWithNl c with
  | true =>
    rw [if_pos rfl]
    refine ⟨by simp, endsWithNl_concat_nl _, fun hmv => ?_⟩
    have hlsnl : ∀ l ∈ ls, '\n' ∉ l :=
      hnl (fun l hl => noNl_of_mem_collect_lines hl) hmv
    exact ⟨collect_lines_joinNl_nl hlsne hlsnl, hidem⟩
  | false =>
    rw [if_neg (fun hff => Bool.noConfusion hff)]
    have htne : t ≠ [] := by
      rcases hlast with hlast | ⟨v, ind, hws, hlast⟩
      · rw [hgt] at hlast
        intro hte
        apply collect_lines_getLast_ne_nil hcne hnlc
        rw [← hlast, hte]
      · rw [hgt] at hlast
        obtain rfl : t = ind ++ expected_proxy_line v := by simpa using hlast
        exact formatted_ne_nil
    have htlast : t.getLast? ≠ some '\n' := by
      rcases hlast with hlast | ⟨v, ind, hws, hlast⟩
      · rw [hgt] at hlast
        have htm : t ∈ collect_lines c := mem_of_mem_getLast? hlast.symm
        intro hc
        exact noNl_of_mem_collect_lines htm (mem_of_mem_getLast? hc)
      · rw [hgt] at hlast
        obtain rfl : t = ind ++ expected_proxy_line v := by simpa using hlast
        rw [getLast?_append, expected_getLast]
        intro hc
        simp at hc
    have hjlast : (joinNl ls).getLast? = t.getLast? := getLast?_joinNl hgt htne
    have hendsf : endsWithNl (joinNl ls) = false := by
      rw [endsWithNl, hjlast]
      simpa using htlast
    refine ⟨hjne, hendsf, fun hmv => ?_⟩
    have hlsnl : ∀ l ∈ ls, '\n' ∉ l :=
      hnl (fun l hl => noNl_of_mem_collect_lines hl) hmv
    exact ⟨collect_lines_joinNl hlsne hlsnl hgt htne, hidem⟩

theorem create_backup_some {s : FsState} {c : Str} (h : s.sshConfig = some c) :
    create_backup s = ({ s with backup := some c }, [.backupWrite c]) := by
  simp only [create_backup, h]

/-- C1 (amended: all proxy values — the default proxy and every
per-host override — are single-line, containing no newline character):
after a successful `add_ssh_hosts` call, a second call with identical
inputs also succeeds, leaves the on-disk SSH config byte-identical to
the result of the first call, and performs no write to the config file
(no edit, hence no duplicate `ProxyCommand` line). -/
theorem c1_add_idempotent (entries : List HostEntry) (proxyHost : Str) (s s1 : FsState)
    (ev1 : List FsEvent)
    (hd : '\n' ∉ proxyHost)
    (he : ∀ e ∈ entries, ∀ v, e.proxy = some v → '\n' ∉ v)
    (h1 : add_ssh_hosts entries proxyHost s = (s1, ev1, none)) :
    ∃ s2 ev2, add_ssh_hosts entries proxyHost s1 = (s2, ev2, none) ∧
      s2.sshConfig = s1.sshConfig ∧ ∀ c, FsEvent.configWrite c ∉ ev2 := by
  by_cases hne : entries = []
  · subst hne
    have h0 : add_ssh_hosts ([] : List HostEntry) proxyHost s = (s, [], none) := by
      rw [add_ssh_hosts, if_pos rfl]
    rw [h1] at h0
    simp only [Prod.mk.injEq] at h0
    obtain ⟨hs, hev, -⟩ := h0
    refine ⟨s1, [], ?_, rfl, fun c => not_mem_nil _⟩
    subst hs
    rw [add_ssh_hosts, if_pos rfl]
  · cases hpa : processAdd (host_proxy_map entries proxyHost)
        (collect_lines (s.sshConfig.getD [])) with
    | error e =>
      rw [add_ssh_hosts_error hne hpa] at h1
      simp only [Prod.mk.injEq] at h1
      exact absurd h1.2.2 (by simp)
    | ok p =>
      obtain ⟨ls, changed⟩ := p
      cases changed with
      | false =>
        rw [add_ssh_hosts_no_change hne hpa] at h1
        simp only [Prod.mk.injEq] at h1
        obtain ⟨hs1, hev1, -⟩ := h1
        have hcfg : s1.sshConfig = s.sshConfig := by
          rw [← hs1, create_backup_config]
        have hpa2 : processAdd (host_proxy_map entries proxyHost)
            (collect_lines (s1.sshConfig.getD [])) = .ok (ls, false) := by
          rw [hcfg]
          exact hpa
        exact ⟨(create_backup s1).1, (create_backup s1).2,
          add_ssh_hosts_no_change hne hpa2, create_backup_config s1,
          create_backup_no_configWrite s1⟩
      | true =>
        rw [add_ssh_hosts_changed hne hpa] at h1
        simp only [Prod.mk.injEq] at h1
        obtain ⟨hs1, hev1, -⟩ := h1
        obtain ⟨hCne, hCnl, hround⟩ := add_changed_content hpa
        obtain ⟨hcoll, hidem⟩ := hround (host_proxy_map_noNl hd he)
        have hcfg1 : s1.sshConfig =
            some (new_ssh_content (endsWithNl (s.sshConfig.getD [])) ls) := by
          rw [← hs1]
        have hpa2 : processAdd (host_proxy_map entries proxyHost)
            (collect_lines (s1.sshConfig.getD [])) = .ok (ls, false) := by
          rw [hcfg1, Option.getD_some, hcoll]
          exact hidem
        exact ⟨(create_backup s1).1, (create_backup s1).2,
          add_ssh_hosts_no_change hne hpa2, create_backup_config s1,
          create_backup_no_configWrite s1⟩

/-- C1 counterexample: with the newline-carrying default proxy
`"a\nb"`, the first `add_ssh_hosts` call writes a config whose
re-parsed lines no longer match the expected `ProxyCommand` line, so
the second call detects a mismatch, edits the document again and writes
content that is not byte-identical (a duplicated `b %h %p` line). -/
theorem c1_counterexample :
    add_ssh_hosts [⟨("h".toList), none⟩] ("a\nb".toList)
      ⟨some ("Host h\n".toList), none⟩ =
      (⟨some ("Host h\n    ProxyCommand /usr/bin/nc -X connect -x a\nb %h %p\n".toList),
        some ("Host h\n".toList)⟩,
       [.backupWrite ("Host h\n".toList),
        .configWrite
          ("Host h\n    ProxyCommand /usr/bin/nc -X connect -x a\nb %h %p\n".toList)],
       none) ∧
    add_ssh_hosts [⟨("h".toList), none⟩] ("a\nb".toList)
      ⟨some ("Host h\n    ProxyCommand /usr/bin/nc -X connect -x a\nb %h %p\n".toList),
        some ("Host h\n".toList)⟩ =
      (⟨some (("Host h\n    ProxyCommand /usr/bin/nc -X connect -x a\n" ++
          "b %h %p\nb %h %p\n").toList),
        some ("Host h\n    ProxyCommand /usr/bin/nc -X connect -x a\nb %h %p\n".toList)⟩,
       [.backupWrite
          ("Host h\n    ProxyCommand /usr/bin/nc -X connect -x a\nb %h %p\n".toList),
        .configWrite (("Host h\n    ProxyCommand /usr/bin/nc -X connect -x a\n" ++
          "b %h %p\nb %h %p\n").toList)],
       none) ∧
    (("Host h\n    ProxyCommand /usr/bin/nc -X connect -x a\n" ++
        "b %h %p\nb %h %p\n").toList) ≠
      ("Host h\n    ProxyCommand /usr/bin/nc -X connect -x a\nb %h %p\n".toList) := by
  refine ⟨?_, ?_, ?_⟩ <;> decide

/-- C2: if some `Host` block of the document has patterns that resolve
(case-insensitively, through the registry) to more than one distinct
proxy value, then `add_ssh_hosts` fails with a conflict error carrying
the trimmed text of such a `Host` line, the on-disk SSH config is left
unmodified, and no config write occurs. -/
theorem c2_conflict_error (entries : List HostEntry) (proxyHost : Str) (s : FsState)
    (hcf : ∃ l ∈ collect_lines (s.sshConfig.getD []), is_host_line l = true ∧
      line_conflicts (host_proxy_map entries proxyHost) l = true) :
    ∃ hl s' ev, hl ∈ collect_lines (s.sshConfig.getD []) ∧ is_host_line hl = true ∧
      line_conflicts (host_proxy_map entries proxyHost) hl = true ∧
      add_ssh_hosts entries proxyHost s = (s', ev, some (.conflict (trim hl))) ∧
      s'.sshConfig = s.sshConfig ∧ ∀ c, FsEvent.configWrite c ∉ ev := by
  have hne : entries ≠ [] := by
    rintro rfl
    obtain ⟨l, _, _, hc⟩ := hcf
    rw [line_conflicts_empty_map] at hc
    exact Bool.noConfusion hc
  obtain ⟨hl, hmem, hhost, hc, herr⟩ :=
    processAdd_error_of_conflict (Nat.lt_succ_self _) hcf
  exact ⟨hl, (create_backup s).1, (create_backup s).2, hmem, hhost, hc,
    add_ssh_hosts_error hne herr, create_backup_config s,
    create_backup_no_configWrite s⟩

/-- C3 (amended: the backup is written unconditionally): when
processing all blocks produces no change, no write to the SSH config
file occurs and its content is untouched, but — contrary to the
original claim — a backup of the prior content is still written, since
`add_ssh_hosts` takes the backup before processing whenever the
registry is non-empty and the config file exists. -/
theorem c3_no_change_no_write (entries : List HostEntry) (proxyHost : Str) (s : FsState)
    (c : Str) (ls : List Str) (hne : entries ≠ []) (hex : s.sshConfig = some c)
    (hnc : processAdd (host_proxy_map entries proxyHost) (collect_lines c) =
      .ok (ls, false)) :
    add_ssh_hosts entries proxyHost s =
      ({ s with backup := some c }, [.backupWrite c], none) := by
  have hnc2 : processAdd (host_proxy_map entries proxyHost)
      (collect_lines (s.sshConfig.getD [])) = .ok (ls, false) := by
    rw [hex]
    exact hnc
  rw [add_ssh_hosts_no_change hne hnc2, create_backup_some hex]

/-- C3 counterexample: an invocation on a config that already carries
the expected `ProxyCommand` line changes nothing (the loop reports
`changed = false`), yet the call still writes the backup file — the
claim "no backup file is written" is false on the code. -/
theorem c3_counterexample :
    processAdd (host_proxy_map [⟨("h".toList), none⟩] ("p:1".toList))
      (collect_lines
        ("Host h\n    ProxyCommand /usr/bin/nc -X connect -x p:1 %h %p\n".toList)) =
      .ok ([("Host h".toList),
        ("    ProxyCommand /usr/bin/nc -X connect -x p:1 %h %p".toList)], false) ∧
    add_ssh_hosts [⟨("h".toList), none⟩] ("p:1".toList)
      ⟨some ("Host h\n    ProxyCommand /usr/bin/nc -X connect -x p:1 %h %p\n".toList),
        none⟩ =
      (⟨some ("Host h\n    ProxyCommand /usr/bin/nc -X connect -x p:1 %h %p\n".toList),
        some ("Host h\n    ProxyCommand /usr/bin/nc -X connect -x p:1 %h %p\n".toList)⟩,
       [.backupWrite
          ("Host h\n    ProxyCommand /usr/bin/nc -X connect -x p:1 %h %p\n".toList)],
       none) := by
  constructor <;> decide

/-- C8 (amended: the trailing newline is restored exactly when the
original content ended with one): whenever a call of `add_ssh_hosts`
writes the config file, the written content is non-empty and ends with
a trailing newline if and only if the prior content did; in particular
a changing call on a document without trailing newline writes content
without one, contrary to the original claim. -/
theorem c8_trailing_newline (entries : List HostEntry) (proxyHost : Str) (s s' : FsState)
    (ev : List FsEvent) (err : Option SshErr) (c : Str)
    (h : add_ssh_hosts entries proxyHost s = (s', ev, err))
    (hw : FsEvent.configWrite c ∈ ev) :
    c ≠ [] ∧ endsWithNl c = endsWithNl (s.sshConfig.getD []) := by
  by_cases hne : entries = []
  · subst hne
    rw [add_ssh_hosts, if_pos rfl] at h
    simp only [Prod.mk.injEq] at h
    rw [← h.2.1] at hw
    exact absurd hw (not_mem_nil _)
  · cases hpa : processAdd (host_proxy_map entries proxyHost)
        (collect_lines (s.sshConfig.getD [])) with
    | error e =>
      rw [add_ssh_hosts_error hne hpa] at h
      simp only [Prod.mk.injEq] at h
      rw [← h.2.1] at hw
      exact absurd hw (create_backup_no_configWrite s c)
    | ok p =>
      obtain ⟨ls, changed⟩ := p
      cases changed with
      | false =>
        rw [add_ssh_hosts_no_change hne hpa] at h
        simp only [Prod.mk.injEq] at h
        rw [← h.2.1] at hw
        exact absurd hw (create_backup_no_configWrite s c)
      | true =>
        rw [add_ssh_hosts_changed hne hpa] at h
        simp only [Prod.mk.injEq] at h
        rw [← h.2.1] at hw
        rcases mem_append.mp hw with hw | hw
        · exact absurd hw (create_backup_no_configWrite s c)
        · obtain rfl : c = new_ssh_content (endsWithNl (s.sshConfig.getD [])) ls := by
            simpa using hw
          obtain ⟨hc1, hc2, -⟩ := add_changed_content hpa
          exact ⟨hc1, hc2⟩

/-- C8 counterexample: a changing add on the document `"Host h"` (no
trailing newline) writes non-empty content that does not end with a
newline, refuting "every non-empty document written by a changing add
call ends with a trailing newline". -/
theorem c8_counterexample :
    add_ssh_hosts [⟨("h".toList), none⟩] ("p:1".toList)
      ⟨some ("Host h".toList), none⟩ =
      (⟨some ("Host h\n    ProxyCommand /usr/bin/nc -X connect -x p:1 %h %p".toList),
        some ("Host h".toList)⟩,
       [.backupWrite ("Host h".toList),
        .configWrite
          ("Host h\n    ProxyCommand /usr/bin/nc -X connect -x p:1 %h %p".toList)],
       none) ∧
    ("Host h\n    ProxyCommand /usr/bin/nc -X connect -x p:1 %h %p".toList : Str) ≠ [] ∧
    endsWithNl
      ("Host h\n    ProxyCommand /usr/bin/nc -X connect -x p:1 %h %p".toList) = false := by
  refine ⟨?_, ?_, ?_⟩ <;> decide

theorem c1_add_idempotent_witness :
    ∃ s2 ev2, add_ssh_hosts [⟨("h".toList), none⟩] ("p:1".toList)
      (⟨some ("Host h\n    ProxyCommand /usr/bin/nc -X connect -x p:1 %h %p\n".toList),
        some ("Host h\n".toList)⟩ : FsState) = (s2, ev2, none) ∧
      s2.sshConfig =
        (⟨some ("Host h\n    ProxyCommand /usr/bin/nc -X connect -x p:1 %h %p\n".toList),
          some ("Host h\n".toList)⟩ : FsState).sshConfig ∧
      ∀ c, FsEvent.configWrite c ∉ ev2 :=
  c1_add_idempotent [⟨("h".toList), none⟩] ("p:1".toList)
    ⟨some ("Host h\n".toList), none⟩
    ⟨some ("Host h\n    ProxyCommand /usr/bin/nc -X connect -x p:1 %h %p\n".toList),
      some ("Host h\n".toList)⟩
    [.backupWrite ("Host h\n".toList),
     .configWrite
       ("Host h\n    ProxyCommand /usr/bin/nc -X connect -x p:1 %h %p\n".toList)]
    (by decide)
    (by
      intro e hme v hv
      rw [List.mem_singleton] at hme
      subst hme
      exact Option.noConfusion hv)
    (by decide)

theorem c2_conflict_error_witness :
    ∃ hl s' ev, hl ∈ collect_lines
        ((⟨some ("Host h1 h2\n".toList), none⟩ : FsState).sshConfig.getD []) ∧
      is_host_line hl = true ∧
      line_conflicts
        (host_proxy_map [⟨("h1".toList), some ("a".toList)⟩,
          ⟨("h2".toList), some ("b".toList)⟩] ("d".toList)) hl = true ∧
      add_ssh_hosts [⟨("h1".toList), some ("a".toList)⟩,
          ⟨("h2".toList), some ("b".toList)⟩] ("d".toList)
        ⟨some ("Host h1 h2\n".toList), none⟩ = (s', ev, some (.conflict (trim hl))) ∧
      s'.sshConfig = (⟨some ("Host h1 h2\n".toList), none⟩ : FsState).sshConfig ∧
      ∀ c, FsEvent.configWrite c ∉ ev :=
  c2_conflict_error [⟨("h1".toList), some ("a".toList)⟩,
      ⟨("h2".toList), some ("b".toList)⟩] ("d".toList)
    ⟨some ("Host h1 h2\n".toList), none⟩
    ⟨("Host h1 h2".toList), by decide, by decide, by decide⟩

theorem c3_no_change_no_write_witness :
    add_ssh_hosts [⟨("h".toList), none⟩] ("p:1".toList)
      ⟨some ("Host h\n    ProxyCommand /usr/bin/nc -X connect -x p:1 %h %p\n".toList),
        none⟩ =
      ({ (⟨some ("Host h\n    ProxyCommand /usr/bin/nc -X connect -x p:1 %h %p\n".toList),
            none⟩ : FsState) with
          backup :=
            some ("Host h\n    ProxyCommand /usr/bin/nc -X connect -x p:1 %h %p\n".toList) },
       [.backupWrite
          ("Host h\n    ProxyCommand /usr/bin/nc -X connect -x p:1 %h %p\n".toList)],
       none) :=
  c3_no_change_no_write [⟨("h".toList), none⟩] ("p:1".toList)
    ⟨some ("Host h\n    ProxyCommand /usr/bin/nc -X connect -x p:1 %h %p\n".toList), none⟩
    ("Host h\n    ProxyCommand /usr/bin/nc -X connect -x p:1 %h %p\n".toList)
    [("Host h".toList), ("    ProxyCommand /usr/bin/nc -X connect -x p:1 %h %p".toList)]
    (by decide) rfl (by decide)

theorem c8_trailing_newline_witness :
    ("Host h\n    ProxyCommand /usr/bin/nc -X connect -x p:1 %h %p".toList : Str) ≠ [] ∧
    endsWithNl ("Host h\n    ProxyCommand /usr/bin/nc -X connect -x p:1 %h %p".toList) =
      endsWithNl ((⟨some ("Host h".toList), none⟩ : FsState).sshConfig.getD []) :=
  c8_trailing_newline [⟨("h".toList), none⟩] ("p:1".toList)
    ⟨some ("Host h".toList), none⟩
    ⟨some ("Host h\n    ProxyCommand /usr/bin/nc -X connect -x p:1 %h %p".toList),
      some ("Host h".toList)⟩
    [.backupWrite ("Host h".toList),
     .configWrite
       ("Host h\n    ProxyCommand /usr/bin/nc -X connect -x p:1 %h %p".toList)]
    none
    ("Host h\n    ProxyCommand /usr/bin/nc -X connect -x p:1 %h %p".toList)
    (by decide) (by decide)

theorem trimStart_eq_nil_of_trim_nil : ∀ {x : Str}, trim x = [] → trimStart x = []
  | [], _ => rfl
  | c :: t, h => by
    by_cases hc : isWsChar c = true
    · have h1 : trimStart (c :: t) = trimStart t := by
        simp [trimStart, dropWhile_cons, hc]
      rw [h1]
      apply trimStart_eq_nil_of_trim_nil
      rw [trim, ← h1]
      exact h
    · exfalso
      have hc' : isWsChar c = false := eq_false_of_ne_true hc
      rw [trim, trimStart_head hc', trimEnd, reverse_eq_nil_iff,
        dropWhile_eq_nil_iff] at h
      exact Bool.noConfusion (hc'.symm.trans (h c (by simp)))

theorem blank_not_directive {x : Str} (h : trim x = []) :
    is_proxy_directive_line x = false := by
  rw [is_proxy_directive_line, trimStart_eq_nil_of_trim_nil h]
  rfl

theorem cleanup_blanks_filter_directive : ∀ (l : List Str),
    (cleanup_blanks l).filter is_proxy_directive_line = l.filter is_proxy_directive_line
  | [] => rfl
  | x :: rest => by
    rw [cleanup_blanks]
    by_cases hb : trim x = [] ∧ (rest = [] ∨ is_host_line (rest.headD []) = true)
    · rw [if_pos hb, cleanup_blanks_filter_directive rest, filter_cons,
        blank_not_directive hb.1]
      simp
    · rw [if_neg hb]

theorem filter_not_tool_directive (body : List Str) :
    (body.filter (fun l => ! is_tool_proxy_line l)).filter is_proxy_directive_line =
      body.filter (fun l => is_proxy_directive_line l && ! is_tool_proxy_line l) := by
  induction body with
  | nil => rfl
  | cons x t ih =>
    by_cases ht : is_tool_proxy_line x = true
    · simp [filter_cons, ht, ih]
    · have ht' : is_tool_proxy_line x = false := eq_false_of_ne_true ht
      by_cases hd : is_proxy_directive_line x = true
      · simp [filter_cons, ht', hd, ih]
      · simp [filter_cons, ht', eq_false_of_ne_true hd, ih]

theorem remove_block_body_filter (body : List Str) :
    (remove_block_body body).1.filter is_proxy_directive_line =
      body.filter (fun l => is_proxy_directive_line l && ! is_tool_proxy_line l) := by
  rw [remove_block_body]
  by_cases ha : body.any is_tool_proxy_line = true
  · rw [if_pos ha]
    exact (cleanup_blanks_filter_directive _).trans (filter_not_tool_directive body)
  · rw [if_neg ha]
    have hall : ∀ l ∈ body, is_tool_proxy_line l = false := by
      intro l hl
      rcases Bool.eq_false_or_eq_true (is_tool_proxy_line l) with h | h
      · exact absurd (any_eq_true.mpr ⟨l, hl, h⟩) ha
      · exact h
    refine filter_congr ?_
    intro l hl
    rw [hall l hl]
    simp

theorem remove_block_body_no_tool (body : List Str) :
    ∀ l ∈ (remove_block_body body).1, is_tool_proxy_line l = false := by
  intro l hl
  rcases Bool.eq_false_or_eq_true (is_tool_proxy_line l) with ht | h
  · exfalso
    have hd : is_proxy_directive_line l = true := by
      rw [is_tool_proxy_line, Bool.and_eq_true] at ht
      exact ht.1
    have hmem : l ∈ ((remove_block_body body).1.filter is_proxy_directive_line) :=
      mem_filter.mpr ⟨hl, hd⟩
    rw [remove_block_body_filter] at hmem
    have h2 := (mem_filter.mp hmem).2
    rw [Bool.and_eq_true, Bool.not_eq_true'] at h2
    exact Bool.false_ne_true (h2.2.symm.trans ht)
  · exact h

theorem processRemoveF_fuel {hs : List Str} :
    ∀ {f1 f2 : Nat} {lines : List Str}, lines.length < f1 → lines.length < f2 →
      processRemoveF hs f1 lines = processRemoveF hs f2 lines
  | 0, _, _, h1, _ => absurd h1 (by omega)
  | _ + 1, 0, _, _, h2 => absurd h2 (by omega)
  | _ + 1, _ + 1, [], _, _ => rfl
  | f1 + 1, f2 + 1, l :: rest, h1, h2 => by
    have hr1 : rest.length < f1 := by
      rw [length_cons] at h1; omega
    have hr2 : rest.length < f2 := by
      rw [length_cons] at h2; omega
    have ha1 : (rest.dropWhile (fun x => ! is_host_line x)).length < f1 :=
      lt_of_le_of_lt (Sublist.length_le (dropWhile_sublist _)) hr1
    have ha2 : (rest.dropWhile (fun x => ! is_host_line x)).length < f2 :=
      lt_of_le_of_lt (Sublist.length_le (dropWhile_sublist _)) hr2
    simp only [processRemoveF]
    by_cases hh : is_host_line l = true
    · rw [if_pos hh, if_pos hh, processRemoveF_fuel ha1 ha2]
    · rw [if_neg hh, if_neg hh, processRemoveF_fuel hr1 hr2]

theorem processRemoveF_eq {hs : List Str} {f : Nat} {lines : List Str}
    (hf : lines.length < f) : processRemoveF hs f lines = processRemove hs lines :=
  processRemoveF_fuel hf (Nat.lt_succ_self _)

theorem processRemove_cons_host {hs : List Str} {l : Str} {rest : List Str}
    (hh : is_host_line l = true) :
    processRemove hs (l :: rest) =
      (l :: ((if block_matches_remove hs l
            then remove_block_body (rest.takeWhile (fun x => ! is_host_line x))
            else (rest.takeWhile (fun x => ! is_host_line x), false)).1 ++
          (processRemove hs (rest.dropWhile (fun x => ! is_host_line x))).1),
        (if block_matches_remove hs l
            then remove_block_body (rest.takeWhile (fun x => ! is_host_line x))
            else (rest.takeWhile (fun x => ! is_host_line x), false)).2 ||
          (processRemove hs (rest.dropWhile (fun x => ! is_host_line x))).2) := by
  rw [processRemove, show ((l :: rest).length + 1 : Nat) = (rest.length + 1) + 1 from by
    rw [length_cons]]
  simp only [processRemoveF]
  rw [if_pos hh,
    processRemoveF_eq (lt_of_le_of_lt (Sublist.length_le (dropWhile_sublist _))
      (Nat.lt_succ_self _))]

/-- C4: for every matched block — a `Host` line matching the lowered
remove set, its body of non-host lines, followed by the next `Host`
line or the end of the document — the remove loop keeps the `Host`
line, replaces the body by `remove_block_body`, and in that new body
the `ProxyCommand` directive lines are exactly the manually authored
ones (those not carrying the tool's `/usr/bin/nc -x` signature), kept
in their original order and byte-identical; no tool-authored
`ProxyCommand` line remains. -/
theorem c4_remove_exact (hs : List Str) (hl : Str) (body after : List Str)
    (hhost : is_host_line hl = true)
    (hbody : ∀ l ∈ body, is_host_line l = false)
    (hafter : after = [] ∨ is_host_line (after.headD []) = true)
    (hmatch : block_matches_remove hs hl = true) :
    processRemove hs (hl :: (body ++ after)) =
      (hl :: ((remove_block_body body).1 ++ (processRemove hs after).1),
        (remove_block_body body).2 || (processRemove hs after).2) ∧
    (remove_block_body body).1.filter is_proxy_directive_line =
      body.filter (fun l => is_proxy_directive_line l && ! is_tool_proxy_line l) ∧
    ∀ l ∈ (remove_block_body body).1, is_tool_proxy_line l = false := by
  have hp : ∀ x ∈ body, (! is_host_line x) = true := fun x hx => by
    rw [hbody x hx]
    rfl
  have hta : after.takeWhile (fun x => ! is_host_line x) = [] := by
    rcases hafter with rfl | hh
    · rfl
    · cases after with
      | nil => rfl
      | cons a t =>
        rw [takeWhile_cons]
        simp only [headD_cons] at hh
        rw [hh]
        rfl
  have hda : after.dropWhile (fun x => ! is_host_line x) = after := by
    rcases hafter with rfl | hh
    · rfl
    · cases after with
      | nil => rfl
      | cons a t =>
        rw [dropWhile_cons]
        simp only [headD_cons] at hh
        rw [hh]
        rfl
  have htake : (body ++ after).takeWhile (fun x => ! is_host_line x) = body := by
    rw [takeWhile_append_all hp, hta, append_nil]
  have hdrop : (body ++ after).dropWhile (fun x => ! is_host_line x) = after := by
    rw [dropWhile_append_all hp, hda]
  refine ⟨?_, remove_block_body_filter body, remove_block_body_no_tool body⟩
  rw [processRemove_cons_host hhost, htake, hdrop, if_pos hmatch]

theorem c4_remove_exact_witness :
    processRemove [("h".toList)]
      (("Host h".toList) ::
        ([("    ProxyCommand /usr/bin/nc -X connect -x p:1 %h %p".toList),
          ("    ProxyCommand ssh -W other".toList),
          ("    User u".toList)] ++ [])) =
      (("Host h".toList) ::
        ((remove_block_body
            [("    ProxyCommand /usr/bin/nc -X connect -x p:1 %h %p".toList),
             ("    ProxyCommand ssh -W other".toList),
             ("    User u".toList)]).1 ++ (processRemove [("h".toList)] []).1),
        (remove_block_body
            [("    ProxyCommand /usr/bin/nc -X connect -x p:1 %h %p".toList),
             ("    ProxyCommand ssh -W other".toList),
             ("    User u".toList)]).2 || (processRemove [("h".toList)] []).2) ∧
    (remove_block_body
        [("    ProxyCommand /usr/bin/nc -X connect -x p:1 %h %p".toList),
         ("    ProxyCommand ssh -W other".toList),
         ("    User u".toList)]).1.filter is_proxy_directive_line =
      [("    ProxyCommand /usr/bin/nc -X connect -x p:1 %h %p".toList),
       ("    ProxyCommand ssh -W other".toList),
       ("    User u".toList)].filter
        (fun l => is_proxy_directive_line l && ! is_tool_proxy_line l) ∧
    ∀ l ∈ (remove_block_body
        [("    ProxyCommand /usr/bin/nc -X connect -x p:1 %h %p".toList),
         ("    ProxyCommand ssh -W other".toList),
         ("    User u".toList)]).1, is_tool_proxy_line l = false :=
  c4_remove_exact [("h".toList)] ("Host h".toList)
    [("    ProxyCommand /usr/bin/nc -X connect -x p:1 %h %p".toList),
     ("    ProxyCommand ssh -W other".toList),
     ("    User u".toList)] []
    (by decide) (by decide) (Or.inl rfl) (by decide)

/-- C7 (code bug): the resolver handles the plain bracketed IPv6
literal `"[::1]:8080"` as claimed, but on the stray-space variant
`"[::1]: 8080"` it yields `"[::1]:80"` rather than the claimed
`"[::1]:8080"`: whitespace splitting in `extract_proxy_host` truncates
the candidate to `"[::1]:"` before `split_host_port`'s dedicated
`"]: "` branch (written for exactly this variant) can ever see the
stray-space input, so the port digits are lost and the synthesized URL
parse defaults the port to 80. -/
theorem c7_ipv6_stray_space :
    extract_proxy_host ("[::1]:8080".toList) = some ("[::1]:8080".toList) ∧
    extract_proxy_host ("[::1]: 8080".toList) = some ("[::1]:80".toList) ∧
    extract_proxy_host ("[::1]: 8080".toList) ≠ some ("[::1]:8080".toList) ∧
    split_host_port ("[::1]: 8080".toList) = some (("[::1]".toList), ("8080".toList)) := by
  refine ⟨?_, ?_, ?_, ?_⟩ <;> decide

/-- C6 (amended: only a repeated bare token or an empty `proxy=` value
is rejected; a `proxy=` token always silently overrides any earlier
value): (1) once an override is set, a further bare token — no
`proxy=` prefix, not a comment — fails with `unexpectedToken`; (2) a
`proxy=` token with empty value fails with `emptyProxy`; (3) a
non-empty `proxy=` token rebinds the override regardless of any
earlier value, so such lines are accepted with the later value
winning; (4) a line whose parse fails is reported with the file path
and the 1-based line number `idx + 1`. -/
theorem c6_hosts_parse_errors (pattern v t : Str) (acc : Option Str) (rest : List Str)
    (hhash : ("#".toList).isPrefixOf t = false)
    (hproxy : ("proxy=".toList).isPrefixOf t = false) :
    parse_tokens pattern (some v) (t :: rest) = .error (.unexpectedToken t) ∧
    parse_tokens pattern acc (("proxy=".toList) :: rest) = .error (.emptyProxy pattern) ∧
    (∀ w : Str, w ≠ [] →
      parse_tokens pattern acc ((("proxy=".toList) ++ w) :: rest) =
        parse_tokens pattern (some w) rest) ∧
    (∀ (path line : Str) (idx : Nat) (restL : List Str) (msg : ParseMsg),
      ¬ (trim line = [] ∨ ("#".toList).isPrefixOf (trim line) = true) →
      parse_host_line (trim line) = .error msg →
      read_hosts_lines path idx (line :: restL) = .error ⟨path, idx + 1, msg⟩) := by
  refine ⟨?_, ?_, ?_, ?_⟩
  · simp only [parse_tokens]
    rw [hhash, hproxy]
    simp
  · rfl
  · intro w hw
    simp only [parse_tokens]
    rw [show (("#".toList).isPrefixOf (("proxy=".toList) ++ w)) = false from rfl,
      show (("proxy=".toList).isPrefixOf (("proxy=".toList) ++ w)) = true from
        isPrefixOf_iff_prefix.mpr (prefix_append _ _),
      show drop 6 (("proxy=".toList) ++ w) = w from rfl]
    simp [hw]
  · intro path line idx restL msg hnb hpl
    simp only [read_hosts_lines]
    rw [if_neg hnb, hpl]

theorem c6_hosts_parse_errors_witness :
    parse_tokens ("h".toList) (some ("a".toList)) (("b".toList) :: []) =
      .error (.unexpectedToken ("b".toList)) ∧
    parse_tokens ("h".toList) (some ("z".toList)) (("proxy=".toList) :: []) =
      .error (.emptyProxy ("h".toList)) ∧
    (∀ w : Str, w ≠ [] →
      parse_tokens ("h".toList) (some ("z".toList)) ((("proxy=".toList) ++ w) :: []) =
        parse_tokens ("h".toList) (some w) []) ∧
    (∀ (path line : Str) (idx : Nat) (restL : List Str) (msg : ParseMsg),
      ¬ (trim line = [] ∨ ("#".toList).isPrefixOf (trim line) = true) →
      parse_host_line (trim line) = .error msg →
      read_hosts_lines path idx (line :: restL) = .error ⟨path, idx + 1, msg⟩) :=
  c6_hosts_parse_errors ("h".toList) ("a".toList) ("b".toList) (some ("z".toList)) []
    (by decide) (by decide)

/-- C6 counterexample: a line with two `proxy=` tokens, and a line with
a bare override followed by a `proxy=` token, are both silently
accepted with the later value overriding the earlier one — both at
line level and through `read_hosts_from_file` — refuting the claim
that such lines always fail with an error. -/
theorem c6_counterexample :
    parse_host_line ("h proxy=a proxy=b".toList) =
      .ok ⟨("h".toList), some ("b".toList)⟩ ∧
    parse_host_line ("h a proxy=b".toList) =
      .ok ⟨("h".toList), some ("b".toList)⟩ ∧
    read_hosts_from_file ("hosts".toList) (some ("h proxy=a proxy=b".toList)) =
      .ok [⟨("h".toList), some ("b".toList)⟩] := by
  refine ⟨?_, ?_, ?_⟩ <;> decide

theorem hostname_char_class {c : Char} (h : isHostnameChar c = true) :
    (97 ≤ c.toNat ∧ c.toNat ≤ 122) ∨ (48 ≤ c.toNat ∧ c.toNat ≤ 57) ∨
      c.toNat = 46 ∨ c.toNat = 45 := by
  simp only [isHostnameChar, isDigitChar, Bool.or_eq_true, Bool.and_eq_true,
    decide_eq_true_eq] at h
  rcases h with ((h1 | h1) | h1) | h1
  · exact Or.inl ⟨h1.1, h1.2⟩
  · exact Or.inr (Or.inl ⟨h1.1, h1.2⟩)
  · exact Or.inr (Or.inr (Or.inl (by rw [h1]; rfl)))
  · exact Or.inr (Or.inr (Or.inr (by rw [h1]; rfl)))

theorem hostname_not_ws {c : Char} (h : isHostnameChar c = true) : isWsChar c = false := by
  have hn := hostname_char_class h
  simp only [isWsChar, Bool.or_eq_false_iff, decide_eq_false_iff_not]
  refine ⟨⟨⟨⟨⟨?_, ?_⟩, ?_⟩, ?_⟩, ?_⟩, ?_⟩ <;>
    · intro he
      subst he
      revert hn
      decide

theorem hostname_not_forbidden {c : Char} (h : isHostnameChar c = true) :
    forbiddenHostChar c = false := by
  have hn := hostname_char_class h
  simp only [forbiddenHostChar, Bool.or_eq_false_iff, decide_eq_false_iff_not]
  repeat' apply And.intro
  all_goals
    intro he
    subst he
    revert hn
    decide

theorem hostname_scheme {c : Char} (h : isHostnameChar c = true) :
    isSchemeChar c = true := by
  simp only [isHostnameChar, isDigitChar, Bool.or_eq_true, Bool.and_eq_true,
    decide_eq_true_eq] at h
  simp only [isSchemeChar, isAsciiAlpha, isDigitChar, Bool.or_eq_true, Bool.and_eq_true,
    decide_eq_true_eq]
  rcases h with ((h1 | h1) | h1) | h1 <;> tauto

theorem hostname_toLower {c : Char} (h : isHostnameChar c = true) : toLowerChar c = c := by
  have hn := hostname_char_class h
  rw [toLowerChar, if_neg]
  simp only [Bool.and_eq_true, decide_eq_true_eq, not_and]
  intro h1 h2
  have h1' : 65 ≤ c.toNat := h1
  have h2' : c.toNat ≤ 90 := h2
  omega

theorem hostname_authority {c : Char} (h : isHostnameChar c = true) :
    (! (c == '/' || c == '?' || c == '#' || c == '\\')) = true := by
  have hn := hostname_char_class h
  simp only [Bool.not_eq_true', Bool.or_eq_false_iff, beq_eq_false_iff_ne, ne_eq]
  refine ⟨⟨⟨?_, ?_⟩, ?_⟩, ?_⟩ <;>
    · intro he
      subst he
      revert hn
      decide

theorem hostname_ne_at {c : Char} (h : isHostnameChar c = true) : c ≠ '@' := by
  have hn := hostname_char_class h
  intro he
  subst he
  revert hn
  decide

theorem hostname_ne_bracket {c : Char} (h : isHostnameChar c = true) : c ≠ '[' := by
  have hn := hostname_char_class h
  intro he
  subst he
  revert hn
  decide

theorem hostname_ne_colon {c : Char} (h : isHostnameChar c = true) : c ≠ ':' := by
  have hn := hostname_char_class h
  intro he
  subst he
  revert hn
  decide

theorem lowerStr_eq_self {s : Str} (h : ∀ c ∈ s, toLowerChar c = c) : lowerStr s = s := by
  induction s with
  | nil => rfl
  | cons x t ih =>
    rw [lowerStr, map_cons, h x (mem_cons_self x t)]
    rw [show List.map toLowerChar t = lowerStr t from rfl,
      ih (fun c hc => h c (mem_cons_of_mem x hc))]

theorem contains_eq_false_of_not_mem {l : Str} {a : Char} (h : a ∉ l) :
    l.contains a = false := by
  simp [List.contains]
  exact fun hmem => absurd hmem h

theorem findSub_single_none : ∀ {s : Str} {c : Char}, c ∉ s → findSub s [c] = none
  | [], _, _ => rfl
  | x :: t, c, h => by
    rw [findSub, if_neg, findSub_single_none (fun hm => h (mem_cons_of_mem x hm))]
    · rfl
    · intro hpre
      rcases isPrefixOf_iff_prefix.mp hpre with ⟨r, hr⟩
      rw [cons_append] at hr
      exact h (hr ▸ mem_cons_self c ([] ++ r))

theorem url_parse_hostname_none {h : Str} (hne : h ≠ [])
    (hall : ∀ c ∈ h, isHostnameChar c = true) : url_parse h = none := by
  obtain ⟨c, t, rfl⟩ : ∃ c t, h = c :: t := by
    cases h with
    | nil => exact absurd rfl hne
    | cons c t => exact ⟨c, t, rfl⟩
  simp only [url_parse]
  by_cases hc : isAsciiAlpha c = true
  · rw [hc]
    have htake : (c :: t).takeWhile isSchemeChar = c :: t :=
      takeWhile_eq_self_iff.mpr (fun x hx => hostname_scheme (hall x hx))
    rw [htake, drop_length]
    rfl
  · rw [eq_false_of_ne_true hc]
    rfl

theorem url_parse_http_hostname {h : Str} (hne : h ≠ [])
    (hall : ∀ c ∈ h, isHostnameChar c = true)
    (hnum : ends_in_a_number h = false) :
    url_parse (("http://".toList) ++ h) = some ⟨("http".toList), some h, none⟩ := by
  have hauth : h.takeWhile (fun c => ! (c == '/' || c == '?' || c == '#' || c == '\\')) = h :=
    takeWhile_eq_self_iff.mpr (fun c hc => hostname_authority (hall c hc))
  have hcont : h.contains '@' = false :=
    contains_eq_false_of_not_mem (fun hm => hostname_ne_at (hall _ hm) rfl)
  have h1 : url_parse (("http://".toList) ++ h) =
      parse_hostport ("http".toList) true
        (if (h.takeWhile
              (fun c => ! (c == '/' || c == '?' || c == '#' || c == '\\'))).contains '@' = true
          then ((h.takeWhile
              (fun c => ! (c == '/' || c == '?' || c == '#' || c == '\\'))).reverse.takeWhile
                (fun c => c != '@')).reverse
          else h.takeWhile (fun c => ! (c == '/' || c == '?' || c == '#' || c == '\\'))) := by
    rfl
  rw [h1, hauth, hcont, if_neg (by simp)]
  obtain ⟨c, t, rfl⟩ : ∃ c t, h = c :: t := by
    cases h with
    | nil => exact absurd rfl hne
    | cons c t => exact ⟨c, t, rfl⟩
  have hhead : ¬ ((c :: t).headD ' ' = '[') := by
    rw [headD_cons]
    exact hostname_ne_bracket (hall c (mem_cons_self c t))
  have hfind : findSub (c :: t) (":".toList) = none :=
    findSub_single_none (fun hm => hostname_ne_colon (hall _ hm) rfl)
  rw [parse_hostport, if_neg hhead, hfind]
  have hforb : (c :: t).any forbiddenHostChar = false := by
    rw [any_eq_false]
    intro x hx
    rw [hostname_not_forbidden (hall x hx)]
    exact Bool.noConfusion
  rw [parse_host, if_neg hne, if_neg hhead, hforb]
  rw [if_neg (by simp), if_pos rfl, hnum]
  rw [if_neg (by simp)]
  rw [lowerStr_eq_self (fun x hx => hostname_toLower (hall x hx))]
  rfl

/-- C10: for every non-empty bare hostname — lowercase letters, digits,
dots and hyphens, hence no scheme, no port, no colon — whose last
dot-label is not numeric, `extract_proxy_host` does not fail: the
direct URL parse rejects the input, the resolver synthesizes an
`http://` prefix, and the known default port of `http` yields
`host:80`. -/
theorem c10_bare_hostname (h : Str) (hne : h ≠ [])
    (hall : ∀ c ∈ h, isHostnameChar c = true)
    (hnum : ends_in_a_number h = false) :
    extract_proxy_host h = some (h ++ (":80".toList)) := by
  have htrim : trim h = h :=
    trim_eq_self (fun c hc => hostname_not_ws (hall c hc))
  have htp1 : try_parse h = none := by
    rw [try_parse, url_parse_hostname_none hne hall]
  have htp2 : try_parse (("http://".toList) ++ h) = some (h ++ (':' :: nat_digits 80)) := by
    rw [try_parse, url_parse_http_hostname hne hall hnum]
    rfl
  simp only [extract_proxy_host]
  rw [htrim, if_neg hne, htp1, htp2]
  rfl

theorem c10_bare_hostname_witness :
    extract_proxy_host ("proxy.local".toList) =
      some (("proxy.local".toList) ++ (":80".toList)) :=
  c10_bare_hostname ("proxy.local".toList) (by decide) (by decide) (by decide)

theorem digit_is_hostname {c : Char} (h : isDigitChar c = true) : isHostnameChar c = true := by
  rw [isHostnameChar, h]
  simp

theorem findSub_single_append : ∀ {a : Str} {c : Char} {b : Str}, c ∉ a →
    findSub (a ++ c :: b) [c] = some a.length
  | [], c, b, _ => by
    rw [nil_append, findSub,
      if_pos (show ([c].isPrefixOf (c :: b)) = true from isPrefixOf_iff_prefix.mpr ⟨b, rfl⟩)]
    rfl
  | x :: a, c, b, h => by
    rw [cons_append, findSub, if_neg,
      findSub_single_append (fun hm => h (mem_cons_of_mem x hm))]
    · rfl
    · intro hpre
      rcases isPrefixOf_iff_prefix.mp hpre with ⟨r, hr⟩
      rw [cons_append] at hr
      have hx : c = x := (cons.injEq ..).mp hr |>.1
      exact h (by rw [hx]; exact mem_cons_self x a)

theorem drop_append_cons (a : Str) (c : Char) (b : Str) :
    (a ++ c :: b).drop (a.length + 1) = b := by
  rw [show a ++ c :: b = (a ++ [c]) ++ b from by rw [append_assoc, singleton_append]]
  exact drop_left' (by rw [length_append, length_singleton])

theorem parse_host_hostname {h : Str} (hne : h ≠ [])
    (hall : ∀ c ∈ h, isHostnameChar c = true)
    (hnum : ends_in_a_number h = false) : parse_host true h = some h := by
  obtain ⟨c, t, rfl⟩ : ∃ c t, h = c :: t := by
    cases h with
    | nil => exact absurd rfl hne
    | cons c t => exact ⟨c, t, rfl⟩
  have hhead : ¬ ((c :: t).headD ' ' = '[') := by
    rw [headD_cons]
    exact hostname_ne_bracket (hall c (mem_cons_self c t))
  have hforb : (c :: t).any forbiddenHostChar = false := by
    rw [any_eq_false]
    intro x hx
    rw [hostname_not_forbidden (hall x hx)]
    exact Bool.noConfusion
  rw [parse_host, if_neg hne, if_neg hhead, hforb]
  rw [if_neg (by simp), if_pos rfl, hnum]
  rw [if_neg (by simp)]
  rw [lowerStr_eq_self (fun x hx => hostname_toLower (hall x hx))]

theorem splitWsF_single (f : Nat) {s : Str} (hne : s ≠ [])
    (h : ∀ c ∈ s, isWsChar c = false) : splitWsF (f + 1) s = [s] := by
  obtain ⟨c, t, rfl⟩ : ∃ c t, s = c :: t := by
    cases s with
    | nil => exact absurd rfl hne
    | cons c t => exact ⟨c, t, rfl⟩
  have h1 : splitWsF (f + 1) (c :: t) =
      (match (c :: t).dropWhile isWsChar with
      | [] => []
      | x :: rest => ((x :: rest).takeWhile (fun y => ! isWsChar y)) ::
          splitWsF f ((x :: rest).dropWhile (fun y => ! isWsChar y))) := rfl
  rw [h1, dropWhile_all_false h]
  show ((c :: t).takeWhile (fun y => ! isWsChar y)) ::
      splitWsF f ((c :: t).dropWhile (fun y => ! isWsChar y)) = [c :: t]
  rw [takeWhile_eq_self_iff.mpr (fun x hx => by rw [h x hx]; rfl),
    show (c :: t).dropWhile (fun y => ! isWsChar y) = [] from
      dropWhile_eq_nil_iff.mpr (fun x hx => by rw [h x hx]; rfl)]
  cases f with
  | zero => rfl
  | succ f => rfl

theorem splitWs_single {s : Str} (hne : s ≠ []) (h : ∀ c ∈ s, isWsChar c = false) :
    splitWs s = [s] := by
  rw [splitWs]
  cases s with
  | nil => exact absurd rfl hne
  | cons c t => exact length_cons c t ▸ splitWsF_single (t.length + 1) (cons_ne_nil c t) h

theorem url_parse_word_space_none {w rest : Str}
    (hw : ∀ c ∈ w, isSchemeChar c = true) (hwa : isAsciiAlpha (w.headD ' ') = true)
    (hwne : w ≠ []) :
    url_parse (w ++ ' ' :: rest) = none := by
  obtain ⟨c, t, rfl⟩ : ∃ c t, w = c :: t := by
    cases w with
    | nil => exact absurd rfl hwne
    | cons c t => exact ⟨c, t, rfl⟩
  rw [headD_cons] at hwa
  have htw : (c :: (t ++ ' ' :: rest)).takeWhile isSchemeChar = c :: t := by
    rw [takeWhile_cons, hw c (mem_cons_self c t), if_pos rfl,
      takeWhile_append_all (fun x hx => hw x (mem_cons_of_mem c hx)), takeWhile_cons,
      show isSchemeChar ' ' = false from rfl]
    simp
  have hdrop : (c :: (t ++ ' ' :: rest)).drop ((c :: t).length) = ' ' :: rest := by
    rw [length_cons, drop_succ_cons, drop_left]
  rw [cons_append]
  simp only [url_parse]
  rw [hwa, Bool.not_true, if_neg (by simp), htw, hdrop]
  rfl

theorem url_parse_http_word_hostport_none {w h p : Str}
    (hwP : ∀ c ∈ w, (! (c == '/' || c == '?' || c == '#' || c == '\\')) = true)
    (hwAt : '@' ∉ w) (hwCol : ':' ∉ w) (hwSp : ' ' ∈ w)
    (hwne : w ≠ []) (hwhead : ¬ (w.headD ' ' = '['))
    (hall : ∀ c ∈ h, isHostnameChar c = true)
    (hpd : p.all isDigitChar = true)
    (hple : strToNat p ≤ 65535) (hp80 : strToNat p ≠ 80) (hpne : p ≠ []) :
    url_parse (("http://".toList) ++ (w ++ (h ++ ':' :: p))) = none := by
  have hdig : ∀ c ∈ p, isHostnameChar c = true :=
    fun c hc => digit_is_hostname (all_eq_true.mp hpd c hc)
  have hauth : (w ++ (h ++ ':' :: p)).takeWhile
      (fun c => ! (c == '/' || c == '?' || c == '#' || c == '\\')) = w ++ (h ++ ':' :: p) := by
    refine takeWhile_eq_self_iff.mpr ?_
    intro c hc
    rcases mem_append.mp hc with hc | hc
    · exact hwP c hc
    · rcases mem_append.mp hc with hc | hc
      · exact hostname_authority (hall c hc)
      · rcases mem_cons.mp hc with rfl | hc
        · decide
        · exact hostname_authority (hdig c hc)
  have hcont : (w ++ (h ++ ':' :: p)).contains '@' = false := by
    refine contains_eq_false_of_not_mem ?_
    intro hm
    rcases mem_append.mp hm with hm | hm
    · exact hwAt hm
    · rcases mem_append.mp hm with hm | hm
      · exact hostname_ne_at (hall _ hm) rfl
      · rcases mem_cons.mp hm with he | hm
        · exact absurd he (by decide)
        · exact absurd (hdig _ hm) (by decide)
  have h1 : url_parse (("http://".toList) ++ (w ++ (h ++ ':' :: p))) =
      parse_hostport ("http".toList) true
        (if ((w ++ (h ++ ':' :: p)).takeWhile
              (fun c => ! (c == '/' || c == '?' || c == '#' || c == '\\'))).contains '@' = true
          then (((w ++ (h ++ ':' :: p)).takeWhile
              (fun c => ! (c == '/' || c == '?' || c == '#' || c == '\\'))).reverse.takeWhile
                (fun c => c != '@')).reverse
          else (w ++ (h ++ ':' :: p)).takeWhile
              (fun c => ! (c == '/' || c == '?' || c == '#' || c == '\\'))) := by
    rfl
  rw [h1, hauth, hcont, if_neg (by simp)]
  have hhead : ¬ ((w ++ (h ++ ':' :: p)).headD ' ' = '[') := by
    obtain ⟨wc, wt, rfl⟩ : ∃ wc wt, w = wc :: wt := by
      cases w with
      | nil => exact absurd rfl hwne
      | cons wc wt => exact ⟨wc, wt, rfl⟩
    rw [cons_append, headD_cons]
    rw [headD_cons] at hwhead
    exact hwhead
  have hassoc : (w ++ (h ++ ':' :: p) : Str) = (w ++ h) ++ ':' :: p := by
    rw [append_assoc]
  have hfind : findSub (w ++ (h ++ ':' :: p)) (":".toList) = some ((w ++ h).length) := by
    rw [hassoc]
    refine findSub_single_append ?_
    intro hm
    rcases mem_append.mp hm with hm | hm
    · exact hwCol hm
    · exact hostname_ne_colon (hall _ hm) rfl
  rw [parse_hostport, if_neg hhead, hfind]
  have hport : parse_port_str ("http".toList) p = some (some (strToNat p)) := by
    simp only [parse_port_str]
    rw [if_neg hpne, hpd, if_pos rfl, if_pos hple,
      if_neg (show ¬ (default_port ("http".toList) = some (strToNat p)) from
        fun hcon => hp80 (Option.some.inj (show some 80 = some (strToNat p) from hcon)).symm)]
  have hdrop : (w ++ (h ++ ':' :: p)).drop ((w ++ h).length + 1) = p := by
    rw [hassoc]
    exact drop_append_cons _ _ _
  have htake : (w ++ (h ++ ':' :: p)).take ((w ++ h).length) = w ++ h := by
    rw [hassoc]
    exact take_left _ _
  show (match parse_port_str ("http".toList)
      ((w ++ (h ++ ':' :: p)).drop ((w ++ h).length + 1)) with
    | none => none
    | some port => (parse_host true ((w ++ (h ++ ':' :: p)).take ((w ++ h).length))).map
        (fun x => ParsedUrl.mk ("http".toList) (some x) port)) = none
  rw [hdrop, hport, htake]
  have hph : parse_host true (w ++ h) = none := by
    have hwne2 : w ++ h ≠ [] := fun hcon => hwne (append_eq_nil.mp hcon).1
    have hhead2 : ¬ ((w ++ h).headD ' ' = '[') := by
      obtain ⟨wc, wt, rfl⟩ : ∃ wc wt, w = wc :: wt := by
        cases w with
        | nil => exact absurd rfl hwne
        | cons wc wt => exact ⟨wc, wt, rfl⟩
      rw [cons_append, headD_cons]
      rw [headD_cons] at hwhead
      exact hwhead
    rw [parse_host, if_neg hwne2, if_neg hhead2,
      show (w ++ h).any forbiddenHostChar = true from
        any_eq_true.mpr ⟨' ', mem_append_left _ hwSp, by decide⟩]
    rfl
  rw [hph]
  rfl

theorem url_parse_http_hostport {h p : Str} (hne : h ≠ [])
    (hall : ∀ c ∈ h, isHostnameChar c = true)
    (hnum : ends_in_a_number h = false)
    (hpd : p.all isDigitChar = true)
    (hple : strToNat p ≤ 65535) (hp80 : strToNat p ≠ 80) (hpne : p ≠ []) :
    url_parse (("http://".toList) ++ (h ++ ':' :: p)) =
      some ⟨("http".toList), some h, some (strToNat p)⟩ := by
  have hdig : ∀ c ∈ p, isHostnameChar c = true :=
    fun c hc => digit_is_hostname (all_eq_true.mp hpd c hc)
  have hauth : (h ++ ':' :: p).takeWhile
      (fun c => ! (c == '/' || c == '?' || c == '#' || c == '\\')) = h ++ ':' :: p := by
    refine takeWhile_eq_self_iff.mpr ?_
    intro c hc
    rcases mem_append.mp hc with hc | hc
    · exact hostname_authority (hall c hc)
    · rcases mem_cons.mp hc with rfl | hc
      · decide
      · exact hostname_authority (hdig c hc)
  have hcont : (h ++ ':' :: p).contains '@' = false := by
    refine contains_eq_false_of_not_mem ?_
    intro hm
    rcases mem_append.mp hm with hm | hm
    · exact hostname_ne_at (hall _ hm) rfl
    · rcases mem_cons.mp hm with he | hm
      · exact absurd he (by decide)
      · exact absurd (hdig _ hm) (by decide)
  have h1 : url_parse (("http://".toList) ++ (h ++ ':' :: p)) =
      parse_hostport ("http".toList) true
        (if ((h ++ ':' :: p).takeWhile
              (fun c => ! (c == '/' || c == '?' || c == '#' || c == '\\'))).contains '@' = true
          then (((h ++ ':' :: p).takeWhile
              (fun c => ! (c == '/' || c == '?' || c == '#' || c == '\\'))).reverse.takeWhile
                (fun c => c != '@')).reverse
          else (h ++ ':' :: p).takeWhile
              (fun c => ! (c == '/' || c == '?' || c == '#' || c == '\\'))) := by
    rfl
  rw [h1, hauth, hcont, if_neg (by simp)]
  have hhead : ¬ ((h ++ ':' :: p).headD ' ' = '[') := by
    obtain ⟨c, t, rfl⟩ : ∃ c t, h = c :: t := by
      cases h with
      | nil => exact absurd rfl hne
      | cons c t => exact ⟨c, t, rfl⟩
    rw [cons_append, headD_cons]
    exact hostname_ne_bracket (hall c (mem_cons_self c t))
  have hfind : findSub (h ++ ':' :: p) (":".toList) = some (h.length) :=
    findSub_single_append (fun hm => hostname_ne_colon (hall _ hm) rfl)
  rw [parse_hostport, if_neg hhead, hfind]
  have hport : parse_port_str ("http".toList) p = some (some (strToNat p)) := by
    simp only [parse_port_str]
    rw [if_neg hpne, hpd, if_pos rfl, if_pos hple,
      if_neg (show ¬ (default_port ("http".toList) = some (strToNat p)) from
        fun hcon => hp80 (Option.some.inj (show some 80 = some (strToNat p) from hcon)).symm)]
  have hdrop : (h ++ ':' :: p).drop (h.length + 1) = p := drop_append_cons _ _ _
  have htake : (h ++ ':' :: p).take (h.length) = h := take_left _ _
  show (match parse_port_str ("http".toList) ((h ++ ':' :: p).drop (h.length + 1)) with
    | none => none
    | some port => (parse_host true ((h ++ ':' :: p).take (h.length))).map
        (fun x => ParsedUrl.mk ("http".toList) (some x) port)) =
    some ⟨("http".toList), some h, some (strToNat p)⟩
  rw [hdrop, hport, htake, parse_host_hostname hne hall hnum]
  rfl

theorem extract_directive_stripped {h p : Str} (hne : h ≠ [])
    (hall : ∀ c ∈ h, isHostnameChar c = true)
    (hnum : ends_in_a_number h = false)
    (hpd : p.all isDigitChar = true)
    (hple : strToNat p ≤ 65535) (hp80 : strToNat p ≠ 80) (hpne : p ≠ []) :
    extract_proxy_host (("PROXY ".toList) ++ (h ++ ':' :: p)) =
      some (h ++ ':' :: nat_digits (strToNat p)) ∧
    extract_proxy_host (("proxy ".toList) ++ (h ++ ':' :: p)) =
      some (h ++ ':' :: nat_digits (strToNat p)) := by
  have hdig : ∀ c ∈ p, isHostnameChar c = true :=
    fun c hc => digit_is_hostname (all_eq_true.mp hpd c hc)
  have hHPall : ∀ c ∈ h ++ ':' :: p, isHostnameChar c = true ∨ c = ':' := by
    intro c hc
    rcases mem_append.mp hc with hc | hc
    · exact Or.inl (hall c hc)
    · rcases mem_cons.mp hc with rfl | hc
      · exact Or.inr rfl
      · exact Or.inl (hdig c hc)
  have hnws : ∀ c ∈ h ++ ':' :: p, isWsChar c = false := by
    intro c hc
    rcases hHPall c hc with hh | rfl
    · exact hostname_not_ws hh
    · rfl
  have hHPne : h ++ ':' :: p ≠ [] := fun hcon => hne (append_eq_nil.mp hcon).1
  have htrimHP : trim (h ++ ':' :: p) = h ++ ':' :: p := trim_eq_self hnws
  obtain ⟨d, hd⟩ : ∃ d, p.getLast? = some d := by
    cases hq : p.getLast? with
    | none => exact absurd (getLast?_eq_none_iff.mp hq) hpne
    | some d => exact ⟨d, rfl⟩
  have hdd : isDigitChar d = true := all_eq_true.mp hpd d (mem_of_mem_getLast? hd)
  have hdclass := hostname_char_class (digit_is_hostname hdd)
  have hdws : isWsChar d = false := hostname_not_ws (digit_is_hostname hdd)
  have hglHP : (h ++ ':' :: p).getLast? = some d := by
    rw [getLast?_append_of_ne_nil _ (cons_ne_nil ':' p),
      show (':' :: p : Str) = [':'] ++ p from rfl,
      getLast?_append_of_ne_nil _ hpne]
    exact hd
  have hnp : (("proxy ".toList).isPrefixOf (h ++ ':' :: p)) = false := by
    rw [Bool.eq_false_iff]
    intro hpre
    have hsub : (' ' : Char) ∈ h ++ ':' :: p :=
      ( isPrefixOf_iff_prefix.mp hpre).subset (by decide)
    exact Bool.false_ne_true ((hnws ' ' hsub).symm.trans (by decide))
  have hsp2 : strip_proxy (h ++ ':' :: p) = h ++ ':' :: p := by
    rw [strip_proxy, if_neg (show ¬ (("proxy ".toList).isPrefixOf (h ++ ':' :: p) = true) from by
      rw [hnp]
      simp)]
  have hft : first_token (h ++ ':' :: p) = h ++ ':' :: p := by
    rw [first_token, splitWs_single hHPne hnws]
    exact htrimHP
  have htm1 : trimEndMatches (h ++ ':' :: p) ';' = h ++ ':' :: p :=
    trimEndMatches_getLast hglHP (by
      intro he
      subst he
      revert hdclass
      decide)
  have htm2 : trimEndMatches (h ++ ':' :: p) '/' = h ++ ':' :: p :=
    trimEndMatches_getLast hglHP (by
      intro he
      subst he
      revert hdclass
      decide)
  have htpC4 : try_parse (("http://".toList) ++ (h ++ ':' :: p)) =
      some (h ++ ':' :: nat_digits (strToNat p)) := by
    rw [try_parse, url_parse_http_hostport hne hall hnum hpd hple hp80 hpne]
    rfl
  constructor
  · -- "PROXY " branch
    have hshape : ("PROXY ".toList ++ (h ++ ':' :: p) : Str) =
        'P' :: (("ROXY ".toList) ++ (h ++ ':' :: p)) := by rfl
    have hglIn : ("PROXY ".toList ++ (h ++ ':' :: p)).getLast? = some d := by
      rw [getLast?_append_of_ne_nil _ hHPne]
      exact hglHP
    have htrimIn : trim ("PROXY ".toList ++ (h ++ ':' :: p)) =
        "PROXY ".toList ++ (h ++ ':' :: p) := by
      rw [trim, hshape, trimStart_head (by decide), ← hshape]
      exact trimEnd_getLast hglIn hdws
    have hInNe : ("PROXY ".toList ++ (h ++ ':' :: p) : Str) ≠ [] :=
      fun hcon => (cons_ne_nil _ _) (hshape ▸ hcon)
    have htpIn1 : try_parse ("PROXY ".toList ++ (h ++ ':' :: p)) = none := by
      rw [try_parse,
        show ("PROXY ".toList ++ (h ++ ':' :: p) : Str) =
          ("PROXY".toList) ++ ' ' :: (h ++ ':' :: p) from by rfl,
        url_parse_word_space_none (by decide) (by decide) (by decide)]
    have htpIn2 : try_parse (("http://".toList) ++ ("PROXY ".toList ++ (h ++ ':' :: p))) =
        none := by
      rw [try_parse,
        url_parse_http_word_hostport_none (w := ("PROXY ".toList)) (by decide) (by decide)
          (by decide) (by decide) (by decide) (by decide) hall hpd hple hp80 hpne]
    have hc1 : strip_PROXY ("PROXY ".toList ++ (h ++ ':' :: p)) = h ++ ':' :: p := by
      rw [strip_PROXY,
        if_pos (show (("PROXY ".toList).isPrefixOf ("PROXY ".toList ++ (h ++ ':' :: p))) = true
          from isPrefixOf_iff_prefix.mpr (prefix_append _ _)),
        show (("PROXY ".toList ++ (h ++ ':' :: p)).drop 6 : Str) = h ++ ':' :: p from by rfl]
      exact htrimHP
    have hcand : candidate ("PROXY ".toList ++ (h ++ ':' :: p)) = h ++ ':' :: p := by
      rw [candidate, hc1, hsp2, hft, htm1, htrimHP, htm2]
    simp only [extract_proxy_host]
    rw [htrimIn, if_neg hInNe, htpIn1, htpIn2, hcand, if_neg hHPne, htpC4]
  · -- "proxy " branch
    have hshape : ("proxy ".toList ++ (h ++ ':' :: p) : Str) =
        'p' :: (("roxy ".toList) ++ (h ++ ':' :: p)) := by rfl
    have hglIn : ("proxy ".toList ++ (h ++ ':' :: p)).getLast? = some d := by
      rw [getLast?_append_of_ne_nil _ hHPne]
      exact hglHP
    have htrimIn : trim ("proxy ".toList ++ (h ++ ':' :: p)) =
        "proxy ".toList ++ (h ++ ':' :: p) := by
      rw [trim, hshape, trimStart_head (by decide), ← hshape]
      exact trimEnd_getLast hglIn hdws
    have hInNe : ("proxy ".toList ++ (h ++ ':' :: p) : Str) ≠ [] :=
      fun hcon => (cons_ne_nil _ _) (hshape ▸ hcon)
    have htpIn1 : try_parse ("proxy ".toList ++ (h ++ ':' :: p)) = none := by
      rw [try_parse,
        show ("proxy ".toList ++ (h ++ ':' :: p) : Str) =
          ("proxy".toList) ++ ' ' :: (h ++ ':' :: p) from by rfl,
        url_parse_word_space_none (by decide) (by decide) (by decide)]
    have htpIn2 : try_parse (("http://".toList) ++ ("proxy ".toList ++ (h ++ ':' :: p))) =
        none := by
      rw [try_parse,
        url_parse_http_word_hostport_none (w := ("proxy ".toList)) (by decide) (by decide)
          (by decide) (by decide) (by decide) (by decide) hall hpd hple hp80 hpne]
    have hc1 : strip_PROXY ("proxy ".toList ++ (h ++ ':' :: p)) =
        "proxy ".toList ++ (h ++ ':' :: p) := by rfl
    have hc2 : strip_proxy ("proxy ".toList ++ (h ++ ':' :: p)) = h ++ ':' :: p := by
      rw [strip_proxy,
        if_pos (show (("proxy ".toList).isPrefixOf ("proxy ".toList ++ (h ++ ':' :: p))) = true
          from isPrefixOf_iff_prefix.mpr (prefix_append _ _)),
        show (("proxy ".toList ++ (h ++ ':' :: p)).drop 6 : Str) = h ++ ':' :: p from by rfl]
      exact htrimHP
    have hcand : candidate ("proxy ".toList ++ (h ++ ':' :: p)) = h ++ ':' :: p := by
      rw [candidate, hc1, hc2, hft, htm1, htrimHP, htm2]
    simp only [extract_proxy_host]
    rw [htrimIn, if_neg hInNe, htpIn1, htpIn2, hcand, if_neg hHPne, htpC4]

/-- C5 (amended: only the exact-case directive forms `PROXY ` and
`proxy ` are stripped): for every bare hostname `h` and canonical port
string `p` (non-empty digits, in `u16` range, not the `http` default
80, without leading zeros), the inputs `"PROXY h:p"` and `"proxy h:p"`
canonicalize to `h:p` — the directive token is stripped and the
following `host:port` token is returned.  Other directive tokens and
casings are not stripped (see the counterexample: `HTTPS …` and
`Proxy …` canonicalize to the directive word itself, not to the
following token). -/
theorem c5_directive_token (h p : Str) (hne : h ≠ [])
    (hall : ∀ c ∈ h, isHostnameChar c = true)
    (hnum : ends_in_a_number h = false)
    (hpd : p.all isDigitChar = true)
    (hple : strToNat p ≤ 65535) (hp80 : strToNat p ≠ 80) (hpne : p ≠ [])
    (hpcan : nat_digits (strToNat p) = p) :
    extract_proxy_host (("PROXY ".toList) ++ (h ++ ':' :: p)) = some (h ++ ':' :: p) ∧
    extract_proxy_host (("proxy ".toList) ++ (h ++ ':' :: p)) = some (h ++ ':' :: p) := by
  obtain ⟨h1, h2⟩ := extract_directive_stripped hne hall hnum hpd hple hp80 hpne
  rw [hpcan] at h1 h2
  exact ⟨h1, h2⟩

theorem c5_directive_token_witness :
    extract_proxy_host (("PROXY ".toList) ++ (("host.example".toList) ++ ':' :: ("8080".toList))) =
      some (("host.example".toList) ++ ':' :: ("8080".toList)) ∧
    extract_proxy_host (("proxy ".toList) ++ (("host.example".toList) ++ ':' :: ("8080".toList))) =
      some (("host.example".toList) ++ ':' :: ("8080".toList)) :=
  c5_directive_token ("host.example".toList) ("8080".toList) (by decide) (by decide)
    (by decide) (by decide) (by decide) (by decide) (by decide) (by decide)

/-- C5 counterexample: the directive tokens `HTTPS`, `Proxy` (mixed
case) and `SOCKS5` are not stripped — the first whitespace token, the
directive word itself, is canonicalized as the host (yielding
`https:80`, `proxy:80`, `socks5:80`), not the following
`host.example:8080` claimed by the spec. -/
theorem c5_counterexample :
    extract_proxy_host ("HTTPS host.example:8080".toList) = some ("https:80".toList) ∧
    extract_proxy_host ("Proxy host.example:8080".toList) = some ("proxy:80".toList) ∧
    extract_proxy_host ("SOCKS5 host.example:8080".toList) = some ("socks5:80".toList) ∧
    extract_proxy_host ("HTTPS host.example:8080".toList) ≠
      some ("host.example:8080".toList) ∧
    extract_proxy_host ("Proxy host.example:8080".toList) ≠
      some ("host.example:8080".toList) := by
  refine ⟨?_, ?_, ?_, ?_, ?_⟩ <;> decide

theorem infix_append_elem {n x : Str} {c0 : Char} (hc : c0 ∉ n)
    (h : n <:+: x ++ [c0]) : n <:+: x := by
  obtain ⟨s, t, hst⟩ := h
  rcases t.eq_nil_or_concat with rfl | ⟨t', a, rfl⟩
  · rw [append_nil] at hst
    rcases n.eq_nil_or_concat with rfl | ⟨n', d, rfl⟩
    · exact nil_infix
    · rw [concat_eq_append] at hst hc ⊢
      rw [← append_assoc] at hst
      obtain ⟨h1, h2⟩ := append_inj' hst rfl
      obtain rfl : d = c0 := by simpa using h2
      exact absurd (mem_append_right n' (mem_singleton_self _)) hc
  · rw [concat_eq_append, ← append_assoc] at hst
    obtain ⟨h1, _⟩ := append_inj' hst rfl
    exact ⟨s, t', h1⟩

theorem count_start_no_infix {s : Str} (h : ¬ (MANAGED_START <:+: s)) :
    count_start_lines s = 0 := by
  rw [count_start_lines, length_eq_zero]
  refine filter_eq_nil_iff.mpr ?_
  intro l hl hbeq
  have hleq : l = MANAGED_START := by simpa using hbeq
  subst hleq
  exact h (isInfix_of_mem_splitOnChar hl)

theorem count_start_append (a b : Str) :
    count_start_lines (a ++ '\n' :: b) = count_start_lines a + count_start_lines b := by
  rw [count_start_lines, count_start_lines, count_start_lines, splitOnChar_append_sep,
    filter_append, length_append]

theorem count_start_block {exports : List Str}
    (hexp : ∀ e ∈ exports, '\n' ∉ e ∧ e ≠ MANAGED_START) :
    count_start_lines (joinNl (MANAGED_START :: (exports ++ [MANAGED_END])) ++ ['\n']) = 1 := by
  have hnl : ∀ l ∈ MANAGED_START :: (exports ++ [MANAGED_END]), '\n' ∉ l := by
    intro l hl
    rcases mem_cons.mp hl with rfl | hl
    · decide
    · rcases mem_append.mp hl with hl | hl
      · exact (hexp l hl).1
      · obtain rfl := mem_singleton.mp hl
        decide
  rw [show (joinNl (MANAGED_START :: (exports ++ [MANAGED_END])) ++ ['\n'] : Str) =
      joinNl (MANAGED_START :: (exports ++ [MANAGED_END])) ++ '\n' :: [] from rfl,
    count_start_lines, splitOnChar_append_sep,
    splitOnChar_joinNl (cons_ne_nil _ _) hnl, splitOnChar_nil, filter_append, filter_cons]
  have h2 : (exports ++ [MANAGED_END]).filter (fun l => l == MANAGED_START) = [] := by
    refine filter_eq_nil_iff.mpr ?_
    intro l hl hbeq
    have hleq : l = MANAGED_START := by simpa using hbeq
    subst hleq
    rcases mem_append.mp hl with hl | hl
    · exact (hexp _ hl).2 rfl
    · exact absurd (mem_singleton.mp hl) (by decide)
  rw [if_pos (by simp), h2]
  decide

theorem count_write_generic {b2 : Str} (h2 : ¬ (MANAGED_START <:+: b2))
    (hend : b2 = [] ∨ endsWithNl b2 = true) {exports : List Str}
    (hexp : ∀ e ∈ exports, '\n' ∉ e ∧ e ≠ MANAGED_START) :
    count_start_lines
      (b2 ++ (joinNl (MANAGED_START :: (exports ++ [MANAGED_END])) ++ ['\n'])) = 1 := by
  rcases hend with rfl | hend
  · rw [nil_append, count_start_block hexp]
  · have hgl : b2.getLast? = some '\n' := by
      rw [endsWithNl] at hend
      exact of_decide_eq_true hend
    have hsplit : b2.dropLast ++ ['\n'] = b2 := dropLast_append_getLast? '\n' hgl
    have hdrop0 : ¬ (MANAGED_START <:+: b2.dropLast) :=
      fun hinf => h2 (hinf.trans ( dropLast_prefix b2).isInfix)
    rw [← hsplit, append_assoc, singleton_append, count_start_append,
      count_start_no_infix hdrop0, count_start_block hexp]

/-- C9 (amended: the invariant holds provided stripping actually
eliminates every start sentinel, i.e. the start sentinel is no longer
an infix of the stripped base — see the counterexample for content
where it is not): for every initial content whose stripped base
contains no start sentinel, and single-line export lines distinct from
the start sentinel, `write_managed_block` leaves exactly one
start-sentinel line and `remove_managed_block` leaves none. -/
theorem c9_single_managed_block (c : Str) (exports : List Str)
    (hP : ¬ (MANAGED_START <:+: (strip_managed_block c).1))
    (hexp : ∀ e ∈ exports, '\n' ∉ e ∧ e ≠ MANAGED_START) :
    count_start_lines (write_managed_block c exports) = 1 ∧
    count_start_lines (remove_managed_block c) = 0 := by
  have hs : ('\n' : Char) ∉ MANAGED_START := by decide
  refine ⟨?_, ?_⟩
  · simp only [write_managed_block]
    generalize hg : (strip_managed_block c).1 = b0
    rw [hg] at hP
    have h1 : ¬ (MANAGED_START <:+:
        (if ! b0.isEmpty && ! endsWithNl b0 then b0 ++ ['\n'] else b0)) := by
      by_cases hcnd : (! b0.isEmpty && ! endsWithNl b0) = true
      · rw [if_pos hcnd]
        exact fun hinf => hP (infix_append_elem hs hinf)
      · rw [if_neg hcnd]
        exact hP
    have hend1 : (if ! b0.isEmpty && ! endsWithNl b0 then b0 ++ ['\n'] else b0) = [] ∨
        endsWithNl (if ! b0.isEmpty && ! endsWithNl b0 then b0 ++ ['\n'] else b0) = true := by
      by_cases hcnd : (! b0.isEmpty && ! endsWithNl b0) = true
      · rw [if_pos hcnd]
        exact Or.inr (endsWithNl_concat_nl b0)
      · rw [if_neg hcnd]
        cases b0 with
        | nil => exact Or.inl rfl
        | cons x t =>
          right
          by_cases he : endsWithNl (x :: t) = true
          · exact he
          · exact absurd (by simp [eq_false_of_ne_true he]) hcnd
    generalize hg1 : (if ! b0.isEmpty && ! endsWithNl b0 then b0 ++ ['\n'] else b0) = b1
    rw [hg1] at h1 hend1
    have h2 : ¬ (MANAGED_START <:+:
        (if ! b1.isEmpty && ! (("\n\n".toList).isSuffixOf b1) then b1 ++ ['\n'] else b1)) := by
      by_cases hcnd : (! b1.isEmpty && ! (("\n\n".toList).isSuffixOf b1)) = true
      · rw [if_pos hcnd]
        exact fun hinf => h1 (infix_append_elem hs hinf)
      · rw [if_neg hcnd]
        exact h1
    have hend2 : (if ! b1.isEmpty && ! (("\n\n".toList).isSuffixOf b1)
          then b1 ++ ['\n'] else b1) = [] ∨
        endsWithNl (if ! b1.isEmpty && ! (("\n\n".toList).isSuffixOf b1)
          then b1 ++ ['\n'] else b1) = true := by
      by_cases hcnd : (! b1.isEmpty && ! (("\n\n".toList).isSuffixOf b1)) = true
      · rw [if_pos hcnd]
        exact Or.inr (endsWithNl_concat_nl b1)
      · rw [if_neg hcnd]
        exact hend1
    rw [append_assoc]
    exact count_write_generic h2 hend2 hexp
  · rw [remove_managed_block]
    exact count_start_no_infix hP

theorem c9_single_managed_block_witness :
    count_start_lines (write_managed_block ("x\n".toList)
      [("export http_proxy=1".toList)]) = 1 ∧
    count_start_lines (remove_managed_block ("x\n".toList)) = 0 :=
  c9_single_managed_block ("x\n".toList) [("export http_proxy=1".toList)]
    (by decide) (by decide)

/-- C9 counterexample: content consisting of an orphan start-sentinel
line (no matching end sentinel) is left untouched by
`strip_managed_block`, so `write_managed_block` appends a fresh block
after it and the result carries two start-sentinel lines — the claimed
at-most-one invariant fails on such initial content. -/
theorem c9_counterexample :
    count_start_lines (write_managed_block (MANAGED_START ++ ['\n'])
      [("export http_proxy=1".toList)]) = 2 := by
  decide
